import Mathlib

/-!
# Verification of the slyn state factory (hierarchical state registry)

Shallow embedding of `src/lib/index.js`: a hierarchical route/state
definition resolver.  Declarations (JS objects) are modelled by the
`Decl` structure, resolved state records by `StateRec`, and the factory
(the mutable `this.states` map plus the pending-registration queue
`this.queue`) by `Factory`.  JS objects used as string-keyed maps are
modelled as insertion-ordered association lists; object references
between records (`parent`, `navigable`) are modelled as names resolved
through the registry, which is faithful because records are never
mutated after creation (the single exception, the clearing of
`root.navigable` right after construction, is modelled explicitly).

The recursive draining of the pending queue in `registerState` is
modelled with an explicit fuel parameter; `RegError.outOfFuel` never
occurs for sufficiently large fuel, and theorems about runs either use
enough fuel or establish that some fuel suffices.
-/

namespace Slyn

/-! ## JS string helpers

`jsSplitDot` mirrors `String.prototype.split(".")` (so `"".split "."`
is `[""]` and `"a..b".split "."` is `["a", "", "b"]`), `jsJoinDot`
mirrors `Array.prototype.join(".")`. -/

/-- JS `split('.')` on a character list, JS semantics. -/
def splitDotAux : List Char → List (List Char)
  | [] => [[]]
  | c :: rest =>
    let r := splitDotAux rest
    if c = '.' then [] :: r
    else
      match r with
      | h :: t => (c :: h) :: t
      | [] => [[c]]

/-- JS `name.split(".")`. -/
def jsSplitDot (s : String) : List String :=
  (splitDotAux s.data).map String.mk

/-- JS `array.join(".")`. -/
def jsJoinDot : List String → String
  | [] => ""
  | [x] => x
  | x :: rest => x ++ "." ++ jsJoinDot rest

/-- JS `name.indexOf('.') !== -1`. -/
def hasDot (s : String) : Bool :=
  s.data.contains '.'

/-- JS `name.substring(0, name.lastIndexOf('.'))` (meaningful when the
name contains a dot): everything before the last dot. -/
def beforeLastDot (s : String) : String :=
  jsJoinDot (jsSplitDot s).dropLast

/-- The regex `/^(.+)\.[^.]+$/` of `stateBuilder.parent`: matches iff
the name has at least two dot-separated components, a non-empty last
component and a non-empty part before the last dot; capture group 1 is
the part before the last dot. -/
def compositeParent (s : String) : Option String :=
  if 2 ≤ (jsSplitDot s).length ∧ (jsSplitDot s).getLast? ≠ some "" ∧
      beforeLastDot s ≠ "" then
    some (beforeLastDot s)
  else
    none

/-! ## URL matchers (external `slyn-url-matcher-factory` collaborator)

The matcher component is external to this repository; it is modelled as
a free structure recording the compile/concat operations, with
`parameters` extracting `:name` placeholders from the pattern strings
(the usual URL-matcher convention).  No theorem below depends on the
specific extraction. -/

inductive Matcher where
  | compile (pattern : String)
  | concat (base : Matcher) (suffix : String)
deriving DecidableEq, Repr

/-- Split a character list at URL separator characters. -/
def splitSepAux : List Char → List (List Char)
  | [] => [[]]
  | c :: rest =>
    let r := splitSepAux rest
    if c = '/' ∨ c = '?' ∨ c = '&' then [] :: r
    else
      match r with
      | h :: t => (c :: h) :: t
      | [] => [[c]]

/-- Parameter names `:name` occurring in a pattern string. -/
def patternParams (s : String) : List String :=
  (splitSepAux s.data).filterMap
    (fun seg =>
      match seg with
      | ':' :: rest => some (String.mk rest)
      | _ => none)

def Matcher.parameters : Matcher → List String
  | .compile p => patternParams p
  | .concat b s => b.parameters ++ patternParams s

/-! ## Declarations and records -/

/-- A JS object used as a `data` mapping: insertion-ordered key/value
pairs with string values. -/
abbrev Obj := List (String × String)

/-- JS `obj[k]` (no prototype chain). -/
def objGet (o : Obj) (k : String) : Option String :=
  (o.find? (fun kv => kv.1 = k)).map (·.2)

/-- Underscore `_.extend({}, a, b)`: a's keys in order with b's values winning,
then b's new keys appended in order. -/
def extendObj (a b : Obj) : Obj :=
  (a.map (fun kv =>
    match b.find? (fun kv2 => kv2.1 = kv.1) with
    | some kv2 => (kv.1, kv2.2)
    | none => kv)) ++
  b.filter (fun kv2 => ¬ a.any (fun kv => kv.1 = kv2.1))

/-- The declared `url` field: absent, `null`, a string, or an already
compiled matcher. -/
inductive UrlField where
  | undef
  | nullv
  | str (s : String)
  | mat (m : Matcher)
deriving DecidableEq, Repr

/-- The declared `views` field: absent, `null` (the root declaration),
or an object mapping view-slot names to view configurations. -/
inductive ViewsField where
  | undef
  | nullv
  | defined (vs : List (String × String))
deriving DecidableEq, Repr

/-- A value of the resolved views map: either the state object itself
(the synthesized default unnamed slot) or a declared configuration. -/
inductive ViewVal where
  | selfRef
  | cfg (c : String)
deriving DecidableEq, Repr

/-- A state declaration as passed to `registerState`. -/
structure Decl where
  name : String
  parent : Option String := none
  url : UrlField := .undef
  data : Option Obj := none
  params : Option (List String) := none
  views : ViewsField := .undef
  abstract : Bool := false
deriving DecidableEq, Repr

/-- A resolved state record.  Object references of the JS code
(`parent`, `navigable`) are stored as names of registry entries; `path`
is the list of names of the records on the path. -/
structure StateRec where
  name : String
  parent : Option String
  data : Option Obj
  url : Option Matcher
  navigable : Option String
  params : List String
  ownParams : List String
  views : List (String × ViewVal)
  path : List String
  includes : List String
  abstract : Bool
deriving DecidableEq, Repr

/-- The factory: `this.states` and `this.queue`. -/
structure Factory where
  states : List (String × StateRec)
  queue : List (String × List Decl)
deriving DecidableEq, Repr

def lookupState (F : Factory) (n : String) : Option StateRec :=
  (F.states.find? (fun kv => kv.1 = n)).map (·.2)

def rootOf (F : Factory) : Option StateRec :=
  lookupState F ""

def storeState (F : Factory) (n : String) (r : StateRec) : Factory :=
  { F with states := F.states ++ [(n, r)] }

def queueBucket (F : Factory) (n : String) : List Decl :=
  ((F.queue.find? (fun kv => kv.1 = n)).map (·.2)).getD []

/-- Source `stateFactory.prototype.queueState`. -/
def queueState (F : Factory) (parentName : String) (d : Decl) : Factory :=
  if (F.queue.find? (fun kv => kv.1 = parentName)).isSome then
    { F with queue := F.queue.map (fun kv =>
        if kv.1 = parentName then (kv.1, kv.2 ++ [d]) else kv) }
  else
    { F with queue := F.queue ++ [(parentName, [d])] }

/-! ## Errors -/

inductive RegError where
  /-- "State must have a valid name" -/
  | invalidName
  /-- "State 'name'' is already defined" -/
  | duplicateState (name : String)
  /-- "Invalid url '…' in state '…'" -/
  | invalidUrl (name : String)
  /-- "Both params and url specicified in state '…'" -/
  | conflictingParamsAndUrl (name : String)
  /-- "Invalid params in state '…'" -/
  | invalidParams (name : String)
  /-- "Missing required parameter 'p' in state 'name'" -/
  | missingRequiredParameter (param name : String)
  /-- "No reference point given for path 'name'" -/
  | noReferencePoint (name : String)
  /-- "Path '…' not valid for state '…'" -/
  | invalidRelativePath (name : String)
  /-- A JS `TypeError` from accessing a property of `undefined`
  (notably `state.self.data` in the data rule: `state.self` is never
  assigned anywhere in the source). -/
  | typeError
  /-- A JS `ReferenceError` from evaluating a bare identifier that is
  defined nowhere in the module (notably `isArray` in the params rule:
  the module only binds `_`, `helper` and `urlMatcherFactory`). -/
  | referenceError (ident : String)
  /-- A parent/navigable name not present in the registry (unreachable
  in actual runs; an artifact of modelling references as names). -/
  | danglingRef
  /-- Fuel exhaustion of the modelled recursion (never happens for
  sufficiently large fuel). -/
  | outOfFuel
deriving DecidableEq, Repr

/-! ## findState (name resolver / lookup) -/

/-- Source `stateFactory.prototype.isRelative`. -/
def isRelative (stateName : String) : Bool :=
  match stateName.data with
  | c :: _ => c = '.' ∨ c = '^'
  | [] => false

/-- The `^`-consuming loop of `findState`: starting from `cur`, consume
leading `"^"` segments by moving to the parent (error when there is no
parent), stop at the first other segment; returns the final anchor and
the unconsumed segments. -/
def caretWalk (F : Factory) (name : String) :
    StateRec → List String → Except RegError (StateRec × List String)
  | cur, segs =>
    match segs with
    | seg :: rest =>
      if seg = "^" then
        match cur.parent with
        | none => .error (.invalidRelativePath name)
        | some pn =>
          match lookupState F pn with
          | some p => caretWalk F name p rest
          | none => .error .danglingRef
      else
        .ok (cur, segs)
    | [] => .ok (cur, segs)

/-- Consumption of a leading empty segment (a name starting with `.`
means "start from base", the segment is consumed at loop index 0). -/
def dropLeadingEmpty (segs : List String) : List String :=
  match segs with
  | s :: rest => if s = "" then rest else s :: rest
  | [] => []

/-- Source `stateFactory.prototype.findState` restricted to string references
(the only kind this development needs; a record reference resolves by
identity and adds nothing here). -/
def findStateE (F : Factory) (name : String) (base : Option StateRec) :
    Except RegError (Option StateRec) :=
  if isRelative name then
    match base with
    | none => .error (.noReferencePoint name)
    | some b =>
      match caretWalk F name b (dropLeadingEmpty (jsSplitDot name)) with
      | .error e => .error e
      | .ok (cur, remaining) =>
        let rel := jsJoinDot remaining
        .ok (lookupState F
          (cur.name ++ (if cur.name ≠ "" ∧ rel ≠ "" then "." else "") ++ rel))
  else
    .ok (lookupState F name)

/-! ## Field Resolution Pipeline (`stateBuilder`) -/

/-- Fallback of the parent rule: the regex capture resolved through
`findState`, else `self.root`. -/
def parentFallback (F : Factory) (name : String) :
    Except RegError (Option StateRec) :=
  match compositeParent name with
  | some pn => findStateE F pn none
  | none => .ok (rootOf F)

/-- Rule `stateBuilder.parent`: explicit truthy `parent` resolved through
`findState`, else the part of the name before the last dot (when the
regex matches) resolved through `findState`, else `self.root`. -/
def SB.parent (F : Factory) (d : Decl) : Except RegError (Option StateRec) :=
  match d.parent with
  | some p =>
    if p ≠ "" then findStateE F p none
    else parentFallback F d.name
  | none => parentFallback F d.name

/-- Rule `stateBuilder.data`: when the parent exists and has data, the code
executes `state.data = state.self.data = _.extend({}, state.parent.data,
state.data)`; `state.self` is `undefined` (nothing in the source ever
assigns it), so that assignment throws a `TypeError`.  Otherwise the
declared data is kept. -/
def SB.data (parent : Option StateRec) (own : Option Obj) :
    Except RegError (Option Obj) :=
  match parent with
  | some p =>
    match p.data with
    | some _ => .error .typeError
    | none => .ok own
  | none => .ok own

/-- What `state.data` would be if `state.self` were set (the evident
intent of the data rule): parent's data extended by own data. -/
def SB.dataIntended (parent : Option StateRec) (own : Option Obj) : Option Obj :=
  match parent with
  | some p =>
    match p.data with
    | some pd => some (extendObj pd (own.getD []))
    | none => own
  | none => own

/-- Concatenation base `state.parent.navigable || self.root`: the
parent's navigable record (dereferenced through the registry, faithful
because records are immutable once stored), else the root. -/
def navBasis (F : Factory) (p : StateRec) : Option StateRec :=
  match p.navigable with
  | some nn => lookupState F nn
  | none => rootOf F

/-- JS `basisRecord.url.concat(url)`: a `TypeError` when the basis has
no url. -/
def matcherConcat : Option Matcher → String → Except RegError (Option Matcher)
  | some m, s => .ok (some (.concat m s))
  | none, _ => .error .typeError

/-- JS `(…).url.concat(url)` on the basis record: dangling basis names
never occur in actual runs. -/
def concatBasis : Option StateRec → String → Except RegError (Option Matcher)
  | some b, s => matcherConcat b.url s
  | none, _ => .error .danglingRef

/-- The non-absolute string branch of the url rule:
`(state.parent.navigable || self.root).url.concat(url)`, a `TypeError`
when `state.parent` is undefined. -/
def SB.urlRel (F : Factory) : Option StateRec → String → Except RegError (Option Matcher)
  | none, _ => .error .typeError -- `state.parent.navigable` on undefined
  | some p, s => concatBasis (navBasis F p) s

/-- Rule `stateBuilder.url`: a `^`-prefixed string compiles the remainder as
an absolute pattern; any other string is concatenated onto
`(state.parent.navigable || self.root).url`; a matcher passes through;
`null`/`undefined` stay absent. -/
def SB.url (F : Factory) (parent : Option StateRec) :
    UrlField → String → Except RegError (Option Matcher)
  | .str s, _ =>
    if s.data.head? = some '^' then
      -- `url.substring(1)`
      .ok (some (.compile (String.mk s.data.tail)))
    else
      SB.urlRel F parent s
  | .mat m, _ => .ok (some m)
  | .nullv, _ => .ok none
  | .undef, _ => .ok none

/-- Rule `stateBuilder.navigable`: the state itself when it has a URL, else
the parent's navigable, else none. -/
def SB.navigable (parent : Option StateRec) (url : Option Matcher)
    (declName : String) : Option String :=
  match url with
  | some _ => some declName
  | none =>
    match parent with
    | some p => p.navigable
    | none => none

/-- Rule `stateBuilder.params`: when no `params` were declared, derive from
the (resolved) URL or inherit the parent's params (`state.parent.params`
throws a `TypeError` when the parent is undefined).  When `params` were
declared (any array is truthy, including `[]`), the rule first evaluates
`isArray(state.params)`; the bare identifier `isArray` is defined
nowhere in the module, so this throws a `ReferenceError` before the
invalid-params and conflicting-params-and-url throws of lines 66-67 can
ever be reached. -/
def SB.params (parent : Option StateRec) (url : Option Matcher)
    (declParams : Option (List String)) (declName : String) :
    Except RegError (List String) :=
  match declParams with
  | none =>
    match url with
    | some m => .ok m.parameters
    | none =>
      match parent with
      | some p => .ok p.params
      | none => .error .typeError -- `state.parent.params` on undefined
  | some _ => .error (.referenceError "isArray")

/-- Insert into a JS-object-modelling association list: overwrite in
place when the key exists, append otherwise. -/
def vSet (vs : List (String × ViewVal)) (k : String) (v : ViewVal) :
    List (String × ViewVal) :=
  if vs.any (fun kv => kv.1 = k) then
    vs.map (fun kv => if kv.1 = k then (kv.1, v) else kv)
  else
    vs ++ [(k, v)]

/-- Rule `stateBuilder.views`: default to one unnamed slot pointing at the
state itself when no `views` were declared (`null` counts as declared
and iterates nothing); slot names without `@` get `@` plus the parent's
name appended. -/
def SB.views (parent : Option StateRec) (vf : ViewsField) :
    Except RegError (List (String × ViewVal)) :=
  match vf with
  | .nullv => .ok []
  | .undef =>
    -- `{'': state}`: the single name '' has no '@'
    match parent with
    | none => .error .typeError -- `state.parent.name` on undefined
    | some p => .ok [("@" ++ p.name, .selfRef)]
  | .defined vs =>
    vs.foldlM (fun acc (nv : String × String) => do
      let n ←
        if nv.1.data.contains '@' then pure nv.1
        else
          match parent with
          | none => .error RegError.typeError
          | some p => pure (nv.1 ++ "@" ++ p.name)
      pure (vSet acc n (.cfg nv.2))) []

/-- Building of the `paramNames` object: each of the state's params
mapped to `true` (insertion order, later duplicates overwrite in
place). -/
def buildParamNames (params : List String) : List (String × Bool) :=
  params.foldl (fun m q =>
    if m.any (fun kv => kv.1 = q) then
      m.map (fun kv => if kv.1 = q then (kv.1, true) else kv)
    else m ++ [(q, true)]) []

/-- Check of one required parent parameter: truthy entry flipped to
`false`, otherwise the missing-required-parameter error. -/
def checkParentParam (declName : String) (m : List (String × Bool))
    (q : String) : Except RegError (List (String × Bool)) :=
  match (m.find? (fun kv => kv.1 = q)).map (·.2) with
  | some true => .ok (m.map (fun kv => if kv.1 = q then (kv.1, false) else kv))
  | _ => .error (RegError.missingRequiredParameter q declName)

/-- Rule `stateBuilder.ownParams`: build `paramNames` mapping each of the
state's params to `true`, flip each parent param to `false` (error when
absent or already flipped), keep the still-`true` keys in insertion
order. -/
def SB.ownParams (parent : Option StateRec) (params : List String)
    (declName : String) : Except RegError (List String) :=
  match parent with
  | none => .ok params
  | some p =>
    match p.params.foldlM (checkParentParam declName) (buildParamNames params) with
    | .error e => .error e
    | .ok pn => .ok ((pn.filter (·.2)).map (·.1))

/-- Rule `stateBuilder.path`: the parent's path with this state appended;
empty without a parent (the root is excluded from every path). -/
def SB.path (parent : Option StateRec) (declName : String) : List String :=
  match parent with
  | some p => p.path ++ [declName]
  | none => []

/-- Rule `stateBuilder.includes`: copy of the parent's includes with this
state's own name added. -/
def SB.includes (parent : Option StateRec) (declName : String) : List String :=
  match parent with
  | some p =>
    if p.includes.contains declName then p.includes
    else p.includes ++ [declName]
  | none => [declName]

/-- The pipeline after the parent rule (rules 2-9, reading the already
resolved parent). -/
def resolveAfterParent (F : Factory) (parent : Option StateRec) (d : Decl) :
    Except RegError StateRec :=
  match SB.data parent d.data with
  | .error e => .error e
  | .ok data =>
    match SB.url F parent d.url d.name with
    | .error e => .error e
    | .ok url =>
      match SB.params parent url d.params d.name with
      | .error e => .error e
      | .ok params =>
        match SB.views parent d.views with
        | .error e => .error e
        | .ok views =>
          match SB.ownParams parent params d.name with
          | .error e => .error e
          | .ok ownParams =>
            .ok {
              name := d.name
              parent := parent.map (·.name)
              data := data
              url := url
              navigable := SB.navigable parent url d.name
              params := params
              ownParams := ownParams
              views := views
              path := SB.path parent d.name
              includes := SB.includes parent d.name
              abstract := d.abstract
            }

/-- The Field Resolution Pipeline: the `stateBuilder` rules applied in
object-key order (parent, data, url, navigable, params, views,
ownParams, path, includes), each later rule reading the earlier
results. -/
def resolveState (F : Factory) (d : Decl) : Except RegError StateRec :=
  match SB.parent F d with
  | .error e => .error e
  | .ok parent => resolveAfterParent F parent d

/-- The parent name used by `registerState` to decide queueing: the JS
conditional `(name.indexOf('.') !== -1) ? name.substring(0,
name.lastIndexOf('.')) : (helper.isString(state.parent)) ? state.parent
: ''` associates so that a dotted name takes precedence over an
explicit `parent` field. -/
def queueParentName (d : Decl) : String :=
  if hasDot d.name then beforeLastDot d.name
  else
    match d.parent with
    | some p => p
    | none => ""

/-- The queued-children loop of `registerState`: register every
declaration of the bucket in order, stopping at the first error.  The
source re-reads `this.queue[name]` live at every iteration, but the
bucket of a name can never change once that name is registered
(`queueState` is only reached when the parent name is absent from
`this.states`, and nothing ever removes queue entries), so iterating
over the bucket as a list is the same loop. -/
def drainWith (reg : Factory → Decl → Except RegError Factory) :
    Factory → List Decl → Except RegError Factory
  | F, [] => .ok F
  | F, e :: rest =>
    match reg F e with
    | .error err => .error err
    | .ok F1 => drainWith reg F1 rest

/-- Source `stateFactory.prototype.registerState`.  Fuel bounds the recursion
depth of the queue draining (one unit per nested `registerState`
call). -/
def registerState : Nat → Factory → Decl → Except RegError Factory
  | 0, _, _ => .error .outOfFuel
  | fuel + 1, F, d =>
    if d.name.data.contains '@' then .error .invalidName
    else if (lookupState F d.name).isSome then .error (.duplicateState d.name)
    else if queueParentName d ≠ "" ∧ (lookupState F (queueParentName d)).isNone then
      .ok (queueState F (queueParentName d) d)
    else
      match resolveState F d with
      | .error e => .error e
      | .ok r =>
        drainWith (registerState fuel) (storeState F d.name r)
          (queueBucket (storeState F d.name r) d.name)

/-- Register a list of declarations in order, all with the same fuel
(the public `state(name, definition)` entry point normalises its two
call shapes into exactly such a `registerState` call). -/
def runAll (F : Factory) (ds : List Decl) (fuel : Nat) : Except RegError Factory :=
  ds.foldlM (fun F d => registerState fuel F d) F

/-! ## Construction -/

/-- The synthetic root declaration registered by the constructor. -/
def rootDecl : Decl :=
  { name := "", url := .str "^", views := .nullv, abstract := true }

/-- Assignment `this.root.navigable = null` right after construction: the root
record is aliased by `this.states['']`, so the stored record changes
too. -/
def clearRootNavigable (F : Factory) : Factory :=
  { F with states := F.states.map (fun kv =>
      if kv.1 = "" then (kv.1, { kv.2 with navigable := none }) else kv) }

/-- The constructor: register the synthetic root into an empty factory,
then clear its `navigable`. -/
def mkFactory : Except RegError Factory := do
  let F ← registerState 1 { states := [], queue := [] } rootDecl
  pure (clearRootNavigable F)

/-- The root record after construction. -/
def rootRec : StateRec :=
  { name := ""
    parent := none
    data := none
    url := some (.compile "")
    navigable := none
    params := []
    ownParams := []
    views := []
    path := []
    includes := [""]
    abstract := true }

/-- The factory right after construction. -/
def initFactory : Factory :=
  { states := [("", rootRec)], queue := [] }

theorem mkFactory_eq : mkFactory = .ok initFactory := by
  rfl

/-! ## Concrete runs used by witnesses and counterexamples -/

/-- The record produced by registering `{name: "a"}` under the root. -/
def recA : StateRec :=
  { name := "a"
    parent := some ""
    data := none
    url := none
    navigable := none
    params := []
    ownParams := []
    views := [("@", .selfRef)]
    path := ["a"]
    includes := ["", "a"]
    abstract := false }

def factoryA : Factory :=
  { states := [("", rootRec), ("a", recA)], queue := [] }

theorem factoryA_run :
    registerState 2 initFactory { name := "a" } = .ok factoryA := by
  rfl

def recC : StateRec :=
  { recA with name := "c", path := ["c"], includes := ["", "c"] }

def factoryC : Factory :=
  { states := [("", rootRec), ("c", recC)], queue := [] }

theorem factoryC_run :
    registerState 2 initFactory { name := "c" } = .ok factoryC := by
  rfl

/-- Record for `{name: "a", data: {k: "v"}}`. -/
def recAData : StateRec :=
  { recA with data := some [("k", "v")] }

def factoryAData : Factory :=
  { states := [("", rootRec), ("a", recAData)], queue := [] }

theorem factoryAData_run :
    registerState 2 initFactory { name := "a", data := some [("k", "v")] } =
      .ok factoryAData := by
  rfl

/-- Record for `{name: "a", url: "/a/:id"}`: the relative URL is
concatenated onto the root matcher and supplies the parameter `id`. -/
def recAUrl : StateRec :=
  { recA with
    url := some (.concat (.compile "") "/a/:id")
    navigable := some "a"
    params := ["id"]
    ownParams := ["id"] }

def factoryAUrl : Factory :=
  { states := [("", rootRec), ("a", recAUrl)], queue := [] }

theorem factoryAUrl_run :
    registerState 2 initFactory { name := "a", url := .str "/a/:id" } =
      .ok factoryAUrl := by
  rfl

def recAB : StateRec :=
  { name := "a.b"
    parent := some "a"
    data := none
    url := none
    navigable := none
    params := []
    ownParams := []
    views := [("@a", .selfRef)]
    path := ["a", "a.b"]
    includes := ["", "a", "a.b"]
    abstract := false }

def recASib : StateRec :=
  { recAB with
    name := "a.sibling"
    path := ["a", "a.sibling"]
    includes := ["", "a", "a.sibling"] }

def factoryABSib : Factory :=
  { states := [("", rootRec), ("a", recA), ("a.b", recAB), ("a.sibling", recASib)]
    queue := [] }

theorem factoryABSib_run :
    runAll initFactory
      [{ name := "a" }, { name := "a.b" }, { name := "a.sibling" }] 2 =
      .ok factoryABSib := by
  rfl

/-! ## C8: the root record after construction -/

/-- C8: after construction of the factory, the root record satisfies
`name = ""`, `abstract = true`, `navigable = none` and `path = []`,
even though the root was declared with the absolute URL `"^"` (its URL
is compiled, but `navigable` is explicitly cleared afterwards). -/
theorem c8_root_record :
    mkFactory = .ok initFactory ∧
    rootDecl.url = .str "^" ∧
    lookupState initFactory "" = some rootRec ∧
    rootRec.name = "" ∧
    rootRec.abstract = true ∧
    rootRec.navigable = none ∧
    rootRec.path = [] ∧
    rootRec.url = some (.compile "") :=
  ⟨mkFactory_eq, rfl, rfl, rfl, rfl, rfl, rfl, rfl⟩

/-! ## C4: declared `params` hit the undefined `isArray` first -/

/-- C4 (code bug): on any truthy declared `params` (every array,
including `[]`, is truthy) the params rule first evaluates
`isArray(state.params)`; the bare identifier `isArray` is bound nowhere
in the module (only `_`, `helper` and `urlMatcherFactory` are), so the
program throws a ReferenceError before the "Both params and url
specicified" throw of the next line can run.  Registering the claim's
input `{name: "x", url: "/x", params: ["p"]}` therefore fails with that
ReferenceError — never with ConflictingParamsAndUrl — and stores no
record; the second conjunct shows the ReferenceError preempts the
conflict check for every parent, resolved URL and declared params
value. -/
theorem c4_params_reference_error :
    registerState 2 initFactory
      { name := "x", url := .str "/x", params := some ["p"] } =
      .error (.referenceError "isArray") ∧
    (∀ (parent : Option StateRec) (url : Option Matcher) (ps : List String)
      (nm : String),
      SB.params parent url (some ps) nm = .error (.referenceError "isArray")) :=
  ⟨rfl, fun _ _ _ _ => rfl⟩

/-! ## C2: the data rule crashes when the parent has data -/

/-- C2 (code bug): registering `{name: "a", data: {k: "v"}}` succeeds
and stores a record whose `data` is non-empty; registering the child
`{name: "a.b"}` under it then throws a `TypeError`, because the data
rule executes `state.data = state.self.data = _.extend(...)` and
`state.self` is never assigned anywhere in the source.  The final two
conjuncts isolate the divergence: the data rule errors exactly where
the intended shallow merge (`SB.dataIntended`, the spec's description)
is well defined. -/
theorem c2_data_rule_type_error :
    registerState 2 initFactory { name := "a", data := some [("k", "v")] } =
      .ok factoryAData ∧
    lookupState factoryAData "a" = some recAData ∧
    recAData.data = some [("k", "v")] ∧
    registerState 2 factoryAData { name := "a.b" } = .error .typeError ∧
    SB.data (some recAData) none = .error .typeError ∧
    SB.dataIntended (some recAData) none = some [("k", "v")] :=
  ⟨rfl, rfl, rfl, rfl, rfl, rfl⟩

/-! ## C9: duplicate registration -/

/-- C9: registering a declaration whose name is already present fails
with DuplicateState, and the registry is unchanged (the error is thrown
before any mutation of `this.states` or `this.queue`, so the original
record under the name is exactly the one still present). -/
theorem c9_duplicate_state (fuel : Nat) (F : Factory) (d : Decl) (r : StateRec)
    (hf : 0 < fuel)
    (hv : d.name.data.contains '@' = false)
    (hdup : lookupState F d.name = some r) :
    registerState fuel F d = .error (.duplicateState d.name) ∧
    lookupState F d.name = some r := by
  obtain ⟨fuel, rfl⟩ : ∃ f, fuel = f + 1 := ⟨fuel - 1, by omega⟩
  refine ⟨?_, hdup⟩
  have hv' : ¬ ('@' ∈ d.name.data) := by simpa using hv
  simp [registerState, hv', hdup]

theorem c9_duplicate_state_witness :
    registerState 1 factoryA { name := "a" } = .error (.duplicateState "a") ∧
    lookupState factoryA "a" = some recA :=
  c9_duplicate_state 1 factoryA { name := "a" } recA (by decide) (by rfl) (by rfl)

/-! ## C3: the queueing parent name gives the dotted prefix precedence -/

/-- A declaration with a dotted name and a conflicting explicit
`parent`. -/
def conflictDecl : Decl := { name := "a.b", parent := some "c" }

/-- C3 counterexample: for `{name: "a.b", parent: "c"}` with `"c"`
registered and `"a"` not, the claim predicts the explicit parent `"c"`
is used (so the declaration, having an available parent, would resolve
and be stored).  Instead the JS conditional associates the other way:
the intended parent name is the dotted prefix `"a"`, the declaration is
queued under `"a"`, and no record is stored. -/
theorem c3_counterexample :
    queueParentName conflictDecl = "a" ∧
    queueParentName conflictDecl ≠ "c" ∧
    lookupState factoryC "c" = some recC ∧
    registerState 2 factoryC conflictDecl =
      .ok { factoryC with queue := [("a", [conflictDecl])] } ∧
    lookupState { factoryC with queue := [("a", [conflictDecl])] } "a.b" = none ∧
    queueBucket { factoryC with queue := [("a", [conflictDecl])] } "a" =
      [conflictDecl] ∧
    queueBucket { factoryC with queue := [("a", [conflictDecl])] } "c" = [] :=
  ⟨rfl, by decide, rfl, rfl, rfl, rfl, rfl⟩

/-- C3 amended: the intended parent name used by `registerState` for
the queueing decision is the substring of `name` before its last `.`
whenever `name` contains a dot — regardless of any explicit `parent`
field — and only otherwise the explicit `parent` (else the root): a
declaration with a dotted name whose dotted prefix is unregistered is
queued under that prefix. -/
theorem c3_dotted_prefix_precedence (fuel : Nat) (F : Factory) (d : Decl)
    (hf : 0 < fuel)
    (hv : d.name.data.contains '@' = false)
    (hnew : lookupState F d.name = none)
    (hdot : hasDot d.name = true)
    (hpn : beforeLastDot d.name ≠ "")
    (hunreg : lookupState F (beforeLastDot d.name) = none) :
    registerState fuel F d = .ok (queueState F (beforeLastDot d.name) d) := by
  obtain ⟨fuel, rfl⟩ : ∃ f, fuel = f + 1 := ⟨fuel - 1, by omega⟩
  have hq : queueParentName d = beforeLastDot d.name := by
    simp [queueParentName, hdot]
  have hv' : ¬ ('@' ∈ d.name.data) := by simpa using hv
  simp [registerState, hv', hnew, hq, hpn, hunreg]

theorem c3_dotted_prefix_precedence_witness :
    registerState 2 factoryC conflictDecl =
      .ok (queueState factoryC (beforeLastDot "a.b") conflictDecl) :=
  c3_dotted_prefix_precedence 2 factoryC conflictDecl (by decide) (by rfl)
    (by rfl) (by rfl) (by decide) (by rfl)

/-! ## C10: the root matcher as silent concatenation base -/

/-- C10: for a declared `url` string not beginning with `^` and a
parent whose resolved `navigable` is none, the url rule does not fail:
it evaluates `(state.parent.navigable || self.root).url.concat(url)`,
so the root's compiled matcher silently serves as the concatenation
base. -/
theorem c10_root_concat_base (F : Factory) (p rt : StateRec) (m : Matcher)
    (s : String) (n : String)
    (hs : s.data.head? ≠ some '^')
    (hnav : p.navigable = none)
    (hroot : lookupState F "" = some rt)
    (hurl : rt.url = some m) :
    SB.url F (some p) (.str s) n = .ok (some (.concat m s)) := by
  simp only [SB.url]
  rw [if_neg hs]
  simp only [SB.urlRel]
  unfold navBasis
  rw [hnav]
  show concatBasis (lookupState F "") s = _
  rw [hroot]
  simp only [concatBasis]
  rw [hurl]
  rfl

theorem c10_root_concat_base_witness :
    SB.url initFactory (some rootRec) (.str "/x") "x" =
      .ok (some (.concat (.compile "") "/x")) :=
  c10_root_concat_base initFactory rootRec rootRec (.compile "") "/x" "x"
    (by decide) (by rfl) (by rfl) (by rfl)

/-! ## C7: relative reference resolution -/

/-- Reference walk written from the spec's words: each leading `^`
segment means "move to the current anchor's parent" (error if there is
no parent) and is consumed; the walk stops at the first other
segment. -/
def specConsume (F : Factory) (name : String) :
    StateRec → List String → Except RegError (StateRec × List String)
  | cur, [] => .ok (cur, [])
  | cur, seg :: rest =>
    if seg = "^" then
      match cur.parent with
      | none => .error (.invalidRelativePath name)
      | some pn =>
        match lookupState F pn with
        | some p => specConsume F name p rest
        | none => .error .danglingRef
    else .ok (cur, seg :: rest)

/-- Leading-empty-segment consumption written from the spec's words: a
name starting with `.` splits to a leading empty segment, which means
"start from base" and is consumed. -/
def specDropLeading : List String → List String
  | s :: rest => if s = "" then rest else s :: rest
  | [] => []

/-- Reference resolver for relative references written from the spec's
words: split the name on `.`, consume a leading empty segment as
"start from base", consume leading `^` segments by walking to parents,
stop at the first other segment, join the remainder onto the anchor's
name with a separating `.` only when both are non-empty, and look the
joined name up. -/
def findStateSpec (F : Factory) (name : String) (b : StateRec) :
    Except RegError (Option StateRec) :=
  match specConsume F name b (specDropLeading (jsSplitDot name)) with
  | .error e => .error e
  | .ok (cur, remaining) =>
    .ok (lookupState F
      (cur.name ++
        (if cur.name ≠ "" ∧ jsJoinDot remaining ≠ "" then "." else "") ++
        jsJoinDot remaining))

theorem caretWalk_eq_specConsume (F : Factory) (name : String) :
    ∀ (segs : List String) (cur : StateRec),
      caretWalk F name cur segs = specConsume F name cur segs := by
  intro segs
  induction segs with
  | nil =>
    intro cur
    rfl
  | cons seg rest ih =>
    intro cur
    show (if seg = "^" then _ else _) = (if seg = "^" then _ else _)
    by_cases hs : seg = "^"
    · rw [if_pos hs, if_pos hs]
      cases hp : cur.parent with
      | none => rfl
      | some pn =>
        show (match lookupState F pn with
              | some p => caretWalk F name p rest
              | none => Except.error RegError.danglingRef) =
            (match lookupState F pn with
              | some p => specConsume F name p rest
              | none => Except.error RegError.danglingRef)
        cases hl : lookupState F pn with
        | none => rfl
        | some p => exact ih p
    · rw [if_neg hs, if_neg hs]

theorem dropLeadingEmpty_eq_spec (segs : List String) :
    dropLeadingEmpty segs = specDropLeading segs := by
  cases segs <;> rfl

/-- C7: findState resolves a relative reference (a string starting with
`.` or `^`) against a base record exactly as the spec describes: split
on `.`, consume a leading empty segment as "start from base", consume
each subsequent leading `^` segment as "move to the current anchor's
parent" (error if there is no parent), stop at the first other
segment, and join the remainder onto the anchor's name with a
separating `.` only when both are non-empty (then look the joined name
up); without a base the resolution errors ("No reference point given").
In particular `findState("^.sibling", base)` with `base.name = "a.b"`
and `"a.sibling"` registered returns the `"a.sibling"` record. -/
theorem c7_relative_resolution :
    (∀ (F : Factory) (name : String) (b : StateRec),
      isRelative name = true →
      findStateE F name (some b) = findStateSpec F name b) ∧
    (∀ (F : Factory) (name : String), isRelative name = true →
      findStateE F name none = .error (.noReferencePoint name)) ∧
    findStateE factoryABSib "^.sibling" (some recAB) = .ok (some recASib) := by
  refine ⟨?_, ?_, by rfl⟩
  · intro F name b hrel
    have hcw := caretWalk_eq_specConsume F name
      (specDropLeading (jsSplitDot name)) b
    unfold findStateE
    rw [if_pos hrel, dropLeadingEmpty_eq_spec]
    show (match caretWalk F name b (specDropLeading (jsSplitDot name)) with
          | Except.error e => Except.error e
          | Except.ok (cur, remaining) =>
            Except.ok (lookupState F
              (cur.name ++
                (if cur.name ≠ "" ∧ jsJoinDot remaining ≠ "" then "." else "") ++
                jsJoinDot remaining))) = findStateSpec F name b
    rw [hcw]
    rfl
  · intro F name hrel
    unfold findStateE
    rw [if_pos hrel]

theorem c7_relative_resolution_witness :
    isRelative "^.sibling" = true ∧
    findStateE factoryABSib "^.sibling" (some recAB) =
      findStateSpec factoryABSib "^.sibling" recAB ∧
    findStateE factoryABSib "^.sibling" none =
      .error (.noReferencePoint "^.sibling") :=
  ⟨by decide,
    c7_relative_resolution.1 factoryABSib "^.sibling" recAB (by decide),
    c7_relative_resolution.2.1 factoryABSib "^.sibling" (by decide)⟩

/-! ## Registry lemmas -/

theorem queueState_states (F : Factory) (pn : String) (d : Decl) :
    (queueState F pn d).states = F.states := by
  unfold queueState
  split <;> rfl

theorem lookupState_queueState (F : Factory) (pn : String) (d : Decl)
    (n : String) : lookupState (queueState F pn d) n = lookupState F n := by
  unfold lookupState
  rw [queueState_states]

theorem lookupState_store_preserved {F : Factory} {n : String} {r : StateRec}
    (n' : String) (r' : StateRec) (h : lookupState F n = some r) :
    lookupState (storeState F n' r') n = some r := by
  unfold lookupState storeState at *
  rw [List.find?_append]
  cases hf : F.states.find? (fun kv => kv.1 = n) with
  | none => rw [hf] at h; simp at h
  | some kv => rw [hf] at h; simpa using h

theorem lookupState_store_self {F : Factory} {n : String} (r : StateRec)
    (h : lookupState F n = none) :
    lookupState (storeState F n r) n = some r := by
  unfold lookupState storeState at *
  rw [List.find?_append]
  cases hf : F.states.find? (fun kv => kv.1 = n) with
  | none => simp
  | some kv => rw [hf] at h; simp at h

theorem lookupState_store_cases {F : Factory} {n' : String} {r' : StateRec}
    {n : String} {rr : StateRec}
    (h : lookupState (storeState F n' r') n = some rr) :
    lookupState F n = some rr ∨ (lookupState F n = none ∧ n = n' ∧ rr = r') := by
  unfold lookupState storeState at *
  rw [List.find?_append] at h
  cases hf : F.states.find? (fun kv => kv.1 = n) with
  | some kv => rw [hf] at h; left; simpa using h
  | none =>
    rw [hf] at h
    right
    refine ⟨by simp, ?_⟩
    by_cases hn : n' = n
    · subst hn
      simp at h
      exact ⟨rfl, h.symm⟩
    · simp [List.find?, hn] at h

theorem queueBucket_storeState (F : Factory) (n : String) (r : StateRec)
    (b : String) : queueBucket (storeState F n r) b = queueBucket F b := rfl

/-- Key-preserving maps commute with keyed `find?`. -/
theorem find?_map_keyed {α : Type} (f : α → α) (p : α → Bool)
    (hp : ∀ a, p (f a) = p a) (l : List α) :
    (l.map f).find? p = (l.find? p).map f := by
  induction l with
  | nil => rfl
  | cons a t ih =>
    by_cases ha : p a = true
    · simp [List.find?, ha, hp a]
    · have ha' : p a = false := by simpa using ha
      simp [List.find?, ha', hp a, ih]

theorem queueBucket_queueState_same (F : Factory) (pn : String) (d : Decl) :
    queueBucket (queueState F pn d) pn = queueBucket F pn ++ [d] := by
  unfold queueBucket queueState
  cases hf : F.queue.find? (fun kv => kv.1 = pn) with
  | none =>
    simp only [hf, Option.isSome_none, Bool.false_eq_true, if_neg, ite_false]
    rw [List.find?_append, hf]
    simp
  | some kv =>
    have hkey := List.find?_some hf
    simp only [decide_eq_true_eq] at hkey
    simp only [hf, Option.isSome_some, if_pos, ite_true]
    rw [find?_map_keyed _ _ (by
      intro a
      by_cases hka : a.1 = pn <;> simp [hka]) F.queue]
    rw [hf]
    simp [hkey]

theorem queueBucket_queueState_other (F : Factory) (pn : String) (d : Decl)
    (b : String) (hb : b ≠ pn) :
    queueBucket (queueState F pn d) b = queueBucket F b := by
  unfold queueBucket queueState
  cases hf : F.queue.find? (fun kv => kv.1 = pn) with
  | none =>
    simp only [hf, Option.isSome_none, Bool.false_eq_true, if_neg, ite_false]
    rw [List.find?_append]
    cases hg : F.queue.find? (fun kv => kv.1 = b) with
    | none => simp [List.find?, Ne.symm hb]
    | some kv => simp
  | some kv =>
    simp only [hf, Option.isSome_some, if_pos, ite_true]
    rw [find?_map_keyed _ _ (by
      intro a
      by_cases hka : a.1 = pn <;> simp [hka]) F.queue]
    cases hg : F.queue.find? (fun kv => kv.1 = b) with
    | none => simp
    | some kv2 =>
      have hkey := List.find?_some hg
      simp only [decide_eq_true_eq] at hkey
      simp [hkey, hb, Ne.symm hb]

/-- Lookup-monotonicity between factories: every stored record stays
stored. -/
def monoLook (F F' : Factory) : Prop :=
  ∀ n r, lookupState F n = some r → lookupState F' n = some r

theorem monoLook_rfl (F : Factory) : monoLook F F := fun _ _ h => h

theorem monoLook_comp {F G H : Factory} (h1 : monoLook F G)
    (h2 : monoLook G H) : monoLook F H :=
  fun n r h => h2 n r (h1 n r h)

theorem drainWith_monoLook {reg : Factory → Decl → Except RegError Factory}
    (hreg : ∀ F e F', reg F e = .ok F' → monoLook F F') :
    ∀ (l : List Decl) (F F' : Factory), drainWith reg F l = .ok F' →
      monoLook F F' := by
  intro l
  induction l with
  | nil =>
    intro F F' h
    unfold drainWith at h
    cases h
    exact monoLook_rfl F
  | cons e rest ih =>
    intro F F' h
    unfold drainWith at h
    cases hre : reg F e with
    | error err => rw [hre] at h; simp at h
    | ok F1 =>
      rw [hre] at h
      exact monoLook_comp (hreg F e F1 hre) (ih F1 F' h)

/-- Inversion of a successful `registerState` call: the name was valid
and fresh, and the call either queued the declaration (parent name
non-empty and unregistered) or resolved, stored and drained. -/
theorem registerState_ok_inv {fuel : Nat} {F : Factory} {d : Decl} {F' : Factory}
    (h : registerState (fuel + 1) F d = .ok F') :
    d.name.data.contains '@' = false ∧ lookupState F d.name = none ∧
    ((queueParentName d ≠ "" ∧ lookupState F (queueParentName d) = none ∧
        F' = queueState F (queueParentName d) d) ∨
      ((queueParentName d = "" ∨ (lookupState F (queueParentName d)).isSome) ∧
        ∃ r, resolveState F d = .ok r ∧
          drainWith (registerState fuel) (storeState F d.name r)
            (queueBucket F d.name) = .ok F')) := by
  unfold registerState at h
  by_cases h1 : d.name.data.contains '@' = true
  · rw [if_pos h1] at h
    simp at h
  rw [if_neg h1] at h
  by_cases h2 : (lookupState F d.name).isSome = true
  · rw [if_pos h2] at h
    simp at h
  rw [if_neg h2] at h
  refine ⟨by simpa using h1, by simpa using h2, ?_⟩
  by_cases h3 : queueParentName d ≠ "" ∧ (lookupState F (queueParentName d)).isNone = true
  · rw [if_pos h3] at h
    cases h
    exact Or.inl ⟨h3.1, by simpa using h3.2, rfl⟩
  · rw [if_neg h3] at h
    cases hres : resolveState F d with
    | error e => rw [hres] at h; simp at h
    | ok r =>
      rw [hres] at h
      refine Or.inr ⟨?_, r, rfl, h⟩
      by_cases hpn : queueParentName d = ""
      · exact Or.inl hpn
      · right
        cases ho : lookupState F (queueParentName d) with
        | none => exact absurd ⟨hpn, by simp [ho]⟩ h3
        | some p0 => simp [ho]

/-- Forward equation: a valid fresh declaration whose parent name is
resolvable (empty or registered) resolves, stores and drains. -/
theorem registerState_store_eq {fuel : Nat} {F : Factory} {d : Decl} {r : StateRec}
    (h1 : d.name.data.contains '@' = false)
    (h2 : lookupState F d.name = none)
    (h3 : queueParentName d = "" ∨ (lookupState F (queueParentName d)).isSome)
    (hres : resolveState F d = .ok r) :
    registerState (fuel + 1) F d =
      drainWith (registerState fuel) (storeState F d.name r)
        (queueBucket F d.name) := by
  unfold registerState
  rw [if_neg (by simp only [h1]; exact Bool.false_ne_true),
    if_neg (by simp [h2]),
    if_neg (by
      rintro ⟨hne, hnone⟩
      rcases h3 with h3 | h3
      · exact hne h3
      · rw [Option.isNone_iff_eq_none] at hnone
        rw [hnone] at h3
        simp at h3), hres]
  rfl

/-- Forward equation: a valid fresh declaration whose non-empty parent
name is unregistered is queued. -/
theorem registerState_queue_eq {fuel : Nat} {F : Factory} {d : Decl}
    (h1 : d.name.data.contains '@' = false)
    (h2 : lookupState F d.name = none)
    (h3 : queueParentName d ≠ "")
    (h4 : lookupState F (queueParentName d) = none) :
    registerState (fuel + 1) F d = .ok (queueState F (queueParentName d) d) := by
  unfold registerState
  rw [if_neg (by simp only [h1]; exact Bool.false_ne_true),
    if_neg (by simp [h2]),
    if_pos ⟨h3, by simp [h4]⟩]

theorem registerState_monoLook :
    ∀ (fuel : Nat) (F : Factory) (d : Decl) (F' : Factory),
      registerState fuel F d = .ok F' → monoLook F F' := by
  intro fuel
  induction fuel with
  | zero =>
    intro F d F' h
    simp [registerState] at h
  | succ fuel ih =>
    intro F d F' h
    obtain ⟨-, -, hcase⟩ := registerState_ok_inv h
    rcases hcase with ⟨-, -, rfl⟩ | ⟨-, r, hres, hdrain⟩
    · intro n r hr
      rw [lookupState_queueState]
      exact hr
    · have h1 : monoLook F (storeState F d.name r) :=
        fun n r0 h0 => lookupState_store_preserved _ _ h0
      exact monoLook_comp h1
        (drainWith_monoLook (fun F e F' hh => ih F e F' hh) _ _ _ hdrain)

theorem runAll_cons {F : Factory} {d : Decl} {rest : List Decl} {fuel : Nat} :
    runAll F (d :: rest) fuel =
      match registerState fuel F d with
      | .error e => .error e
      | .ok F1 => runAll F1 rest fuel := by
  unfold runAll
  simp only [List.foldlM]
  cases hre : registerState fuel F d with
  | error err => rfl
  | ok F1 => rfl

theorem resolveState_ok_inv {F : Factory} {d : Decl} {r : StateRec}
    (h : resolveState F d = .ok r) :
    ∃ parent data url params views ownParams,
      SB.parent F d = .ok parent ∧ SB.data parent d.data = .ok data ∧
      SB.url F parent d.url d.name = .ok url ∧
      SB.params parent url d.params d.name = .ok params ∧
      SB.views parent d.views = .ok views ∧
      SB.ownParams parent params d.name = .ok ownParams ∧
      r = { name := d.name
            parent := parent.map (·.name)
            data := data
            url := url
            navigable := SB.navigable parent url d.name
            params := params
            ownParams := ownParams
            views := views
            path := SB.path parent d.name
            includes := SB.includes parent d.name
            abstract := d.abstract } := by
  unfold resolveState at h
  split at h
  · simp at h
  unfold resolveAfterParent at h
  split at h
  · simp at h
  split at h
  · simp at h
  split at h
  · simp at h
  split at h
  · simp at h
  split at h
  · simp at h
  cases h
  exact ⟨_, _, _, _, _, _, ‹_›, ‹_›, ‹_›, ‹_›, ‹_›, ‹_›, rfl⟩

/-- Every record that `findState` returns comes out of the registry. -/
theorem findStateE_ok_some {F : Factory} {name : String} {base : Option StateRec}
    {p : StateRec} (h : findStateE F name base = .ok (some p)) :
    ∃ y, lookupState F y = some p := by
  unfold findStateE at h
  split at h
  · split at h
    · simp at h
    · split at h
      · simp at h
      · injection h with h2
        exact ⟨_, h2⟩
  · injection h with h2
    exact ⟨name, h2⟩

theorem parentFallback_ok_some {F : Factory} {nm : String} {p : StateRec}
    (h : parentFallback F nm = .ok (some p)) :
    ∃ y, lookupState F y = some p := by
  unfold parentFallback at h
  split at h
  · exact findStateE_ok_some h
  · injection h with h2
    exact ⟨"", h2⟩

/-- A resolved parent record is always a registry entry. -/
theorem SB_parent_ok_some {F : Factory} {d : Decl} {p : StateRec}
    (h : SB.parent F d = .ok (some p)) :
    ∃ y, lookupState F y = some p := by
  unfold SB.parent at h
  split at h
  · split at h
    · exact findStateE_ok_some h
    · exact parentFallback_ok_some h
  · exact parentFallback_ok_some h

theorem bindOk {ε α β : Type} (a : α) (g : α → Except ε β) :
    (Except.ok a >>= g) = g a := rfl

/-- Keys of the `paramNames` object all come from the state's params. -/
theorem buildParamNames_keys {params : List String} :
    ∀ kv ∈ buildParamNames params, kv.1 ∈ params := by
  unfold buildParamNames
  suffices h : ∀ (l : List String) (acc : List (String × Bool)) (P : List String),
      (∀ kv ∈ acc, kv.1 ∈ P) → (∀ q ∈ l, q ∈ P) →
      ∀ kv ∈ l.foldl (fun m q =>
        if m.any (fun kv => kv.1 = q) then
          m.map (fun kv => if kv.1 = q then (kv.1, true) else kv)
        else m ++ [(q, true)]) acc, kv.1 ∈ P by
    intro kv hkv
    exact h params [] params (by simp) (fun q hq => hq) kv hkv
  intro l
  induction l with
  | nil => intro acc P hacc _ kv hkv; exact hacc kv hkv
  | cons q t ih =>
    intro acc P hacc hl kv hkv
    refine ih _ P ?_ (fun q' hq' => hl q' (by simp [hq'])) kv hkv
    intro kv' hkv'
    simp only [] at hkv'
    split at hkv'
    · obtain ⟨kv0, hkv0, hmap⟩ := List.mem_map.1 hkv'
      have := hacc kv0 hkv0
      by_cases hk : kv0.1 = q <;> simp [hk] at hmap <;> subst hmap <;>
        simpa [hk] using this
    · rcases List.mem_append.1 hkv' with hin | hin
      · exact hacc kv' hin
      · simp at hin
        subst hin
        exact hl q (by simp)

/-- Success of the parent-params check loop forces every checked
parameter to be a key of the accumulator, whose keys all come from the
state's params. -/
theorem checkLoop_mem {declName : String} {params : List String} :
    ∀ (l : List String) (m m' : List (String × Bool)),
      (∀ kv ∈ m, kv.1 ∈ params) →
      l.foldlM (checkParentParam declName) m = .ok m' →
      ∀ q ∈ l, q ∈ params := by
  intro l
  induction l with
  | nil => intro m m' _ _ q hq; simp at hq
  | cons q0 t ih =>
    intro m m' hkeys h q hq
    rw [List.foldlM_cons] at h
    cases hstep : checkParentParam declName m q0 with
    | error e => rw [hstep] at h; simp [show ((Except.error e : Except RegError _) >>= _) = Except.error e from rfl] at h
    | ok m1 =>
      rw [hstep, bindOk] at h
      have hq0 : q0 ∈ params := by
        unfold checkParentParam at hstep
        split at hstep
        · rename_i heq
          obtain ⟨kv, hfind⟩ : ∃ kv, m.find? (fun kv => kv.1 = q0) = some kv := by
            cases hf : m.find? (fun kv => kv.1 = q0) with
            | none => rw [hf] at heq; simp at heq
            | some kv => exact ⟨kv, rfl⟩
          have hkv1 : kv.1 = q0 := by simpa using List.find?_some hfind
          have := hkeys kv (List.mem_of_find?_eq_some hfind)
          rwa [hkv1] at this
        · simp at hstep
      have hkeys1 : ∀ kv ∈ m1, kv.1 ∈ params := by
        unfold checkParentParam at hstep
        split at hstep
        · cases hstep
          intro kv hkv
          obtain ⟨kv0, hkv0, hmap⟩ := List.mem_map.1 hkv
          have := hkeys kv0 hkv0
          by_cases hk : kv0.1 = q0 <;> simp [hk] at hmap <;> subst hmap <;>
            simpa [hk] using this
        · simp at hstep
      rcases List.mem_cons.1 hq with rfl | hq
      · exact hq0
      · exact ih m1 m' hkeys1 h q hq

/-- Success of the ownParams rule with a parent forces the state's
params to be a superset of the parent's params. -/
theorem ownParams_superset {p : StateRec} {params : List String}
    {declName : String} {ops : List String}
    (h : SB.ownParams (some p) params declName = .ok ops) :
    ∀ q ∈ p.params, q ∈ params := by
  cases hfold : p.params.foldlM (checkParentParam declName)
      (buildParamNames params) with
  | error e =>
    have h2 : (match p.params.foldlM (checkParentParam declName)
          (buildParamNames params) with
        | Except.error e => (Except.error e : Except RegError (List String))
        | Except.ok pn =>
          Except.ok ((pn.filter (fun kv : String × Bool => kv.2)).map
            (fun kv : String × Bool => kv.1))) =
        .ok ops := h
    rw [hfold] at h2
    simp at h2
  | ok pn =>
    exact checkLoop_mem p.params (buildParamNames params) pn
      (fun kv hkv => buildParamNames_keys kv hkv) hfold

theorem runAll_monoLook :
    ∀ (ds : List Decl) (fuel : Nat) (F F' : Factory),
      runAll F ds fuel = .ok F' → monoLook F F' := by
  intro ds
  induction ds with
  | nil =>
    intro fuel F F' h
    unfold runAll at h
    cases h
    exact monoLook_rfl F
  | cons d rest ih =>
    intro fuel F F' h
    rw [runAll_cons] at h
    cases hre : registerState fuel F d with
    | error err => rw [hre] at h; simp at h
    | ok F1 =>
      rw [hre] at h
      exact monoLook_comp (registerState_monoLook fuel F d F1 hre)
        (ih fuel F1 F' h)

/-! ## Generic invariant preservation over runs -/

/-- All queued declarations satisfy `D`. -/
def queuedOK (D : Decl → Prop) (F : Factory) : Prop :=
  ∀ b e, e ∈ queueBucket F b → D e

theorem queuedOK_queueState {D : Decl → Prop} {F : Factory} {d : Decl}
    (hF : queuedOK D F) (hd : D d) (pn : String) :
    queuedOK D (queueState F pn d) := by
  intro b e he
  by_cases hb : b = pn
  · subst hb
    rw [queueBucket_queueState_same] at he
    rcases List.mem_append.1 he with hin | hin
    · exact hF b e hin
    · simp at hin
      subst hin
      exact hd
  · rw [queueBucket_queueState_other F pn d b hb] at he
    exact hF b e he

theorem queuedOK_storeState {D : Decl → Prop} {F : Factory} {n : String}
    {r : StateRec} (hF : queuedOK D F) : queuedOK D (storeState F n r) :=
  fun b e he => hF b e he

theorem queuedOK_initFactory (D : Decl → Prop) : queuedOK D initFactory := by
  intro b e he
  simp [queueBucket, initFactory] at he

/-- Generic preservation: a factory predicate `Q` preserved by queueing
and by resolve-and-store steps is preserved by `registerState`,
provided every declaration seen (directly or out of the queue)
satisfies `D`. -/
theorem registerState_preserve
    {Q : Factory → Prop} {D : Decl → Prop}
    (hqueue : ∀ F d pn, Q F → D d → Q (queueState F pn d))
    (hstore : ∀ F d r, Q F → D d →
      d.name.data.contains '@' = false →
      lookupState F d.name = none →
      (queueParentName d = "" ∨ (lookupState F (queueParentName d)).isSome) →
      resolveState F d = .ok r → Q (storeState F d.name r)) :
    ∀ (fuel : Nat) (F : Factory) (d : Decl) (F' : Factory),
      Q F → queuedOK D F → D d →
      registerState fuel F d = .ok F' → Q F' ∧ queuedOK D F' := by
  intro fuel
  induction fuel with
  | zero =>
    intro F d F' _ _ _ h
    simp [registerState] at h
  | succ fuel ih =>
    intro F d F' hQ hQD hD h
    obtain ⟨hv, hfresh, hcase⟩ := registerState_ok_inv h
    rcases hcase with ⟨hne, hnone, rfl⟩ | ⟨hguard, r, hres, hdrain⟩
    · exact ⟨hqueue F d _ hQ hD, queuedOK_queueState hQD hD _⟩
    · have hQ1 : Q (storeState F d.name r) :=
        hstore F d r hQ hD hv hfresh hguard hres
      have hQD1 : queuedOK D (storeState F d.name r) := queuedOK_storeState hQD
      have hdl : ∀ (l : List Decl) (F0 F1 : Factory), Q F0 → queuedOK D F0 →
          (∀ e ∈ l, D e) → drainWith (registerState fuel) F0 l = .ok F1 →
          Q F1 ∧ queuedOK D F1 := by
        intro l
        induction l with
        | nil =>
          intro F0 F1 hQ0 hQD0 _ hd0
          unfold drainWith at hd0
          cases hd0
          exact ⟨hQ0, hQD0⟩
        | cons e rest ihl =>
          intro F0 F1 hQ0 hQD0 hDl hd0
          unfold drainWith at hd0
          cases hre : registerState fuel F0 e with
          | error err => rw [hre] at hd0; simp at hd0
          | ok F2 =>
            rw [hre] at hd0
            obtain ⟨hQ2, hQD2⟩ := ih F0 e F2 hQ0 hQD0 (hDl e (by simp)) hre
            exact ihl F2 F1 hQ2 hQD2 (fun e' he' => hDl e' (by simp [he'])) hd0
      exact hdl (queueBucket F d.name) (storeState F d.name r) F' hQ1 hQD1
        (fun e he => hQD d.name e he) hdrain

theorem runAll_preserve
    {Q : Factory → Prop} {D : Decl → Prop}
    (hqueue : ∀ F d pn, Q F → D d → Q (queueState F pn d))
    (hstore : ∀ F d r, Q F → D d →
      d.name.data.contains '@' = false →
      lookupState F d.name = none →
      (queueParentName d = "" ∨ (lookupState F (queueParentName d)).isSome) →
      resolveState F d = .ok r → Q (storeState F d.name r)) :
    ∀ (ds : List Decl) (fuel : Nat) (F F' : Factory),
      Q F → queuedOK D F → (∀ d ∈ ds, D d) →
      runAll F ds fuel = .ok F' → Q F' ∧ queuedOK D F' := by
  intro ds
  induction ds with
  | nil =>
    intro fuel F F' hQ hQD _ h
    unfold runAll at h
    cases h
    exact ⟨hQ, hQD⟩
  | cons d rest ih =>
    intro fuel F F' hQ hQD hD h
    rw [runAll_cons] at h
    cases hre : registerState fuel F d with
    | error err => rw [hre] at h; simp at h
    | ok F1 =>
      rw [hre] at h
      obtain ⟨hQ1, hQD1⟩ := registerState_preserve hqueue hstore fuel F d F1
        hQ hQD (hD d (by simp)) hre
      exact ih fuel F1 F' hQ1 hQD1 (fun e he => hD e (by simp [he])) h

/-! ## C6: params form a superset of the parent's params -/

/-- Invariant for C6: stored records carry their key as `name`, and
every stored record with a parent reference has its parent stored with
a params subset. -/
def InvC6 (F : Factory) : Prop :=
  (∀ n r, lookupState F n = some r → r.name = n) ∧
  (∀ n r pn, lookupState F n = some r → r.parent = some pn →
    ∃ rp, lookupState F pn = some rp ∧ ∀ q ∈ rp.params, q ∈ r.params)

theorem lookup_initFactory {n : String} {r : StateRec}
    (h : lookupState initFactory n = some r) : n = "" ∧ r = rootRec := by
  unfold lookupState initFactory at h
  by_cases hn : n = ""
  · subst hn
    simp [List.find?] at h
    exact ⟨rfl, h.symm⟩
  · simp [List.find?, Ne.symm hn] at h

theorem invC6_initFactory : InvC6 initFactory := by
  constructor
  · intro n r h
    obtain ⟨rfl, rfl⟩ := lookup_initFactory h
    rfl
  · intro n r pn h hpar
    obtain ⟨rfl, rfl⟩ := lookup_initFactory h
    simp [rootRec] at hpar

theorem invC6_queue : ∀ (F : Factory) (d : Decl) (pn : String),
    InvC6 F → True → InvC6 (queueState F pn d) := by
  intro F d pn hQ _
  constructor
  · intro n r h
    rw [lookupState_queueState] at h
    exact hQ.1 n r h
  · intro n r pn' h hpar
    rw [lookupState_queueState] at h
    obtain ⟨rp, hrp, hsup⟩ := hQ.2 n r pn' h hpar
    exact ⟨rp, by rw [lookupState_queueState]; exact hrp, hsup⟩

theorem invC6_store : ∀ (F : Factory) (d : Decl) (r : StateRec),
    InvC6 F → True →
    d.name.data.contains '@' = false →
    lookupState F d.name = none →
    (queueParentName d = "" ∨ (lookupState F (queueParentName d)).isSome) →
    resolveState F d = .ok r → InvC6 (storeState F d.name r) := by
  intro F d r hQ _ _ _ _ hres
  obtain ⟨parent, data, url, params, views, ownParams,
    hp, hd, hu, hps, hvw, hop, rfl⟩ := resolveState_ok_inv hres
  constructor
  · intro n r0 h0
    rcases lookupState_store_cases h0 with hold | ⟨_, rfl, rfl⟩
    · exact hQ.1 n r0 hold
    · rfl
  · intro n r0 pn h0 hpar
    rcases lookupState_store_cases h0 with hold | ⟨_, rfl, rfl⟩
    · obtain ⟨rp, hrp, hsup⟩ := hQ.2 n r0 pn hold hpar
      exact ⟨rp, lookupState_store_preserved _ _ hrp, hsup⟩
    · cases parent with
      | none => simp at hpar
      | some p =>
        simp at hpar
        obtain ⟨y, hy⟩ := SB_parent_ok_some hp
        have hyname : p.name = y := hQ.1 y p hy
        have hpn : lookupState F pn = some p := by
          rw [← hpar, hyname]
          exact hy
        refine ⟨p, lookupState_store_preserved _ _ hpn, ?_⟩
        exact ownParams_superset hop

/-- C6: for every state successfully registered (in any run from the
constructed factory) that carries a parent reference, its `params` is a
superset of the parent's `params` — the ownParams rule errors with
MissingRequiredParameter (naming the parameter and the state) on any
violation, as the second conjunct shows for a child whose absolute URL
supplies no parameters under a parent whose URL requires `id` (URL
derivation and inheritance are the reachable sources of params:
declared `params` die earlier at the undefined `isArray`, see C4). -/
theorem c6_params_superset :
    (∀ (ds : List Decl) (fuel : Nat) (F : Factory),
      runAll initFactory ds fuel = .ok F →
      ∀ n r pn rp, lookupState F n = some r → r.parent = some pn →
        lookupState F pn = some rp → ∀ q ∈ rp.params, q ∈ r.params) ∧
    registerState 2 factoryAUrl { name := "a.c", url := .str "^/c" } =
      .error (.missingRequiredParameter "id" "a.c") := by
  constructor
  · intro ds fuel F hrun n r pn rp hr hpar hrp
    have hQ := (runAll_preserve (D := fun _ => True) invC6_queue invC6_store
      ds fuel initFactory F invC6_initFactory
      (queuedOK_initFactory _) (by simp) hrun).1
    obtain ⟨rp', hrp', hsup⟩ := hQ.2 n r pn hr hpar
    rw [hrp] at hrp'
    injection hrp' with hrp2
    rw [← hrp2] at hsup
    exact hsup
  · rfl

/-- Record for `{name: "a.b"}` registered under `"a"` of `factoryAUrl`:
no own URL and no declared params, so `params` is inherited from the
parent. -/
def recABUrl : StateRec :=
  { name := "a.b"
    parent := some "a"
    data := none
    url := none
    navigable := some "a"
    params := ["id"]
    ownParams := []
    views := [("@a", .selfRef)]
    path := ["a", "a.b"]
    includes := ["", "a", "a.b"]
    abstract := false }

def factoryABUrl : Factory :=
  { states := [("", rootRec), ("a", recAUrl), ("a.b", recABUrl)]
    queue := [] }

theorem c6_params_superset_witness : "id" ∈ recABUrl.params :=
  (c6_params_superset.1
    [{ name := "a", url := .str "/a/:id" }, { name := "a.b" }] 2 factoryABUrl
    (by rfl) "a.b" recABUrl "a" recAUrl (by rfl) (by rfl) (by rfl))
    "id" (by decide)

/-! ## C5: the includes map -/

theorem splitDotAux_ne_nil : ∀ cs : List Char, splitDotAux cs ≠ [] := by
  intro cs
  induction cs with
  | nil => simp [splitDotAux]
  | cons c rest ih =>
    unfold splitDotAux
    by_cases hc : c = '.'
    · simp [hc]
    · simp only [hc, if_neg, ite_false]
      cases hr : splitDotAux rest with
      | nil => exact absurd hr ih
      | cons h t => simp

theorem splitDotAux_two_iff : ∀ cs : List Char,
    2 ≤ (splitDotAux cs).length ↔ '.' ∈ cs := by
  intro cs
  induction cs with
  | nil => simp [splitDotAux]
  | cons c rest ih =>
    unfold splitDotAux
    by_cases hc : c = '.'
    · subst hc
      simp only [if_pos rfl]
      constructor
      · intro _
        simp
      · intro _
        have h1 : 1 ≤ (splitDotAux rest).length := by
          cases hr : splitDotAux rest with
          | nil => exact absurd hr (splitDotAux_ne_nil rest)
          | cons h t => simp
        simpa using h1
    · simp only [hc, if_neg, ite_false]
      cases hr : splitDotAux rest with
      | nil => exact absurd hr (splitDotAux_ne_nil rest)
      | cons h t =>
        rw [hr] at ih
        simp only [List.length_cons] at ih ⊢
        simp only [List.mem_cons, ih]
        constructor
        · intro hx
          exact Or.inr hx
        · rintro (hx | hx)
          · exact absurd hx.symm hc
          · exact hx

theorem hasDot_iff (s : String) : hasDot s = true ↔ 2 ≤ (jsSplitDot s).length := by
  unfold hasDot jsSplitDot
  rw [List.length_map]
  rw [splitDotAux_two_iff]
  simp

/-- Inversion of the regex match: the captured group is the part
before the last dot, the name contains a dot, and the capture is
non-empty. -/
theorem compositeParent_eq {s : String} {pn : String}
    (h : compositeParent s = some pn) :
    pn = beforeLastDot s ∧ hasDot s = true ∧ pn ≠ "" := by
  unfold compositeParent at h
  split at h
  · rename_i hcond
    injection h with h2
    subst h2
    exact ⟨rfl, (hasDot_iff s).2 hcond.1, hcond.2.2⟩
  · exact absurd h (by simp)

theorem findStateE_absolute {F : Factory} {nm : String}
    (h : isRelative nm = false) (b : Option StateRec) :
    findStateE F nm b = .ok (lookupState F nm) := by
  unfold findStateE
  rw [if_neg (by simp [h])]

/-- With no explicit `parent` field, a declaration reaching the
pipeline (parent name empty or registered, root stored) resolves its
parent to a registry record. -/
theorem SB_parent_resolves {F : Factory} {d : Decl} {parent : Option StateRec}
    (hD : d.parent = none)
    (hroot : (lookupState F "").isSome)
    (hguard : queueParentName d = "" ∨ (lookupState F (queueParentName d)).isSome)
    (hp : SB.parent F d = .ok parent) :
    ∃ p y, parent = some p ∧ lookupState F y = some p := by
  unfold SB.parent at hp
  simp only [hD] at hp
  unfold parentFallback at hp
  cases hcp : compositeParent d.name with
  | none =>
    simp only [hcp] at hp
    injection hp with hp2
    obtain ⟨rr, hrr⟩ := Option.isSome_iff_exists.1 hroot
    refine ⟨rr, "", ?_, hrr⟩
    rw [← hp2]
    exact hrr
  | some pn =>
    simp only [hcp] at hp
    obtain ⟨hpnbld, hdot, hpnne⟩ := compositeParent_eq hcp
    have hq : queueParentName d = pn := by
      simp [queueParentName, hdot, hpnbld]
    have hsome : (lookupState F pn).isSome := by
      rcases hguard with hg | hg
      · rw [hq] at hg
        exact absurd hg hpnne
      · rwa [hq] at hg
    by_cases hrel : isRelative pn = true
    · unfold findStateE at hp
      rw [if_pos hrel] at hp
      simp at hp
    · rw [findStateE_absolute (by simpa using hrel)] at hp
      injection hp with hp2
      obtain ⟨p, hpp⟩ := Option.isSome_iff_exists.1 hsome
      refine ⟨p, pn, ?_, hpp⟩
      rw [← hp2]
      exact hpp

/-- Invariant for C5, over arbitrary runs (explicit parent fields
included): every stored record has its key as name; its includes
contain its path and its own name; a parentless record has exactly its
own name as includes and an empty path; a parented record has its own
name on its path; when the root's empty name is a member of includes,
includes is exactly path plus own name plus the empty name; and a
parented record's parent is stored, with includes exactly the parent's
includes plus the own name and path exactly the parent's path plus the
own name. -/
def InvC5 (F : Factory) : Prop :=
  (lookupState F "").isSome ∧
  (∀ n r, lookupState F n = some r → r.name = n) ∧
  (∀ n r, lookupState F n = some r →
    (∀ m ∈ r.path, m ∈ r.includes) ∧
    r.name ∈ r.includes ∧
    (r.parent = none → r.includes = [r.name] ∧ r.path = []) ∧
    (r.parent ≠ none → r.name ∈ r.path) ∧
    ("" ∈ r.includes →
      ∀ m, m ∈ r.includes ↔ (m ∈ r.path ∨ m = r.name ∨ m = "")) ∧
    (∀ pn, r.parent = some pn → ∃ p, lookupState F pn = some p ∧
      (∀ m, m ∈ r.includes ↔ (m ∈ p.includes ∨ m = r.name)) ∧
      r.path = p.path ++ [r.name]))

theorem invC5_initFactory : InvC5 initFactory := by
  refine ⟨by rfl, ?_, ?_⟩
  · intro n r h
    obtain ⟨rfl, rfl⟩ := lookup_initFactory h
    rfl
  · intro n r h
    obtain ⟨rfl, rfl⟩ := lookup_initFactory h
    refine ⟨?_, ?_, ?_, ?_, ?_, ?_⟩
    · intro m hm
      simp [rootRec] at hm
    · simp [rootRec]
    · intro h0
      exact ⟨rfl, rfl⟩
    · intro h0
      exact absurd rfl h0
    · intro h0 m
      simp [rootRec]
    · intro pn hpn
      simp [rootRec] at hpn

theorem invC5_queue : ∀ (F : Factory) (d : Decl) (pn : String),
    InvC5 F → True → InvC5 (queueState F pn d) := by
  intro F d pn hQ _
  refine ⟨?_, ?_, ?_⟩
  · rw [lookupState_queueState]
    exact hQ.1
  · intro n r h
    rw [lookupState_queueState] at h
    exact hQ.2.1 n r h
  · intro n r h
    rw [lookupState_queueState] at h
    obtain ⟨h1, h2, h3, h4, h5, h6⟩ := hQ.2.2 n r h
    refine ⟨h1, h2, h3, h4, h5, ?_⟩
    intro pn' hpn'
    obtain ⟨p, hpl, hpm, hppath⟩ := h6 pn' hpn'
    exact ⟨p, by rw [lookupState_queueState]; exact hpl, hpm, hppath⟩

theorem invC5_store : ∀ (F : Factory) (d : Decl) (r : StateRec),
    InvC5 F → True →
    d.name.data.contains '@' = false →
    lookupState F d.name = none →
    (queueParentName d = "" ∨ (lookupState F (queueParentName d)).isSome) →
    resolveState F d = .ok r → InvC5 (storeState F d.name r) := by
  intro F d r hQ _ _ hfresh _ hres
  obtain ⟨parent, data, url, params, views, ownParams,
    hp, hdta, hu, hps, hvw, hop, rfl⟩ := resolveState_ok_inv hres
  have hdne : d.name ≠ "" := by
    intro h0
    obtain ⟨rr, hrr⟩ := Option.isSome_iff_exists.1 hQ.1
    rw [h0] at hfresh
    rw [hfresh] at hrr
    exact Option.noConfusion hrr
  refine ⟨?_, ?_, ?_⟩
  · obtain ⟨rr, hrr⟩ := Option.isSome_iff_exists.1 hQ.1
    rw [lookupState_store_preserved _ _ hrr]
    rfl
  · intro n r0 h0
    rcases lookupState_store_cases h0 with hold | ⟨_, rfl, rfl⟩
    · exact hQ.2.1 n r0 hold
    · rfl
  · intro n r0 h0
    rcases lookupState_store_cases h0 with hold | ⟨_, rfl, rfl⟩
    · obtain ⟨h1, h2, h3, h4, h5, h6⟩ := hQ.2.2 n r0 hold
      refine ⟨h1, h2, h3, h4, h5, ?_⟩
      intro pn' hpn'
      obtain ⟨p, hpl, hpm, hppath⟩ := h6 pn' hpn'
      exact ⟨p, lookupState_store_preserved _ _ hpl, hpm, hppath⟩
    · cases parent with
      | none =>
        refine ⟨?_, ?_, ?_, ?_, ?_, ?_⟩
        · intro m hm
          simp [SB.path] at hm
        · simp [SB.includes]
        · intro h0
          exact ⟨rfl, rfl⟩
        · intro h0
          exact absurd rfl h0
        · intro hemp
          simp [SB.includes] at hemp
          exact absurd hemp.symm hdne
        · intro pn' hpn'
          simp at hpn'
      | some p =>
        obtain ⟨y, hy⟩ := SB_parent_ok_some hp
        have hyname : p.name = y := hQ.2.1 y p hy
        have hpl : lookupState F p.name = some p := by
          rw [hyname]
          exact hy
        obtain ⟨hp1, hp2, hp3, hp4, hp5, -⟩ := hQ.2.2 y p hy
        have hmem : ∀ m, m ∈ SB.includes (some p) d.name ↔
            (m ∈ p.includes ∨ m = d.name) := by
          intro m
          have hdef : SB.includes (some p) d.name =
              (if p.includes.contains d.name then p.includes
               else p.includes ++ [d.name]) := rfl
          rw [hdef]
          by_cases hcont : d.name ∈ p.includes
          · rw [if_pos (by simpa using hcont)]
            constructor
            · intro hx
              exact Or.inl hx
            · rintro (hx | rfl)
              · exact hx
              · exact hcont
          · rw [if_neg (by simpa using hcont)]
            simp [List.mem_append]
        have hpath : SB.path (some p) d.name = p.path ++ [d.name] := rfl
        refine ⟨?_, ?_, ?_, ?_, ?_, ?_⟩
        · intro m hm
          rw [hpath] at hm
          rcases List.mem_append.1 hm with hm | hm
          · exact (hmem m).2 (Or.inl (hp1 m hm))
          · simp at hm
            subst hm
            exact (hmem _).2 (Or.inr rfl)
        · exact (hmem _).2 (Or.inr rfl)
        · intro h0
          simp at h0
        · intro h0
          rw [hpath]
          exact List.mem_append_right _ (by simp)
        · intro hemp
          have hempP : "" ∈ p.includes := by
            rcases (hmem "").1 hemp with h0 | h0
            · exact h0
            · exact absurd h0.symm hdne
          have hpe := hp5 hempP
          have hpname : p.name ∈ p.path ∨ p.name = "" := by
            by_cases hpp : p.parent = none
            · obtain ⟨hpi, -⟩ := hp3 hpp
              rw [hpi] at hempP
              simp at hempP
              exact Or.inr hempP.symm
            · exact Or.inl (hp4 hpp)
          intro m
          show m ∈ SB.includes (some p) d.name ↔
            (m ∈ SB.path (some p) d.name ∨ m = d.name ∨ m = "")
          rw [hmem m, hpath]
          constructor
          · rintro (hm | hm)
            · rcases (hpe m).1 hm with h0 | h0 | h0
              · exact Or.inl (List.mem_append_left _ h0)
              · subst h0
                rcases hpname with h1 | h1
                · exact Or.inl (List.mem_append_left _ h1)
                · exact Or.inr (Or.inr h1)
              · exact Or.inr (Or.inr h0)
            · exact Or.inr (Or.inl hm)
          · rintro (hm | hm | hm)
            · rcases List.mem_append.1 hm with h0 | h0
              · exact Or.inl ((hpe m).2 (Or.inl h0))
              · simp at h0
                exact Or.inr h0
            · exact Or.inr hm
            · subst hm
              exact Or.inl hempP
        · intro pn' hpn'
          have hpn2 : some p.name = some pn' := hpn'
          injection hpn2 with hpn3
          refine ⟨p, ?_, hmem, hpath⟩
          rw [← hpn3]
          exact lookupState_store_preserved _ _ hpl

/-- C5 counterexample: the record registered for `{name: "a"}` has the
root's empty name as a key of its `includes` map, yet the empty name is
neither on its `path` (the root is excluded from paths) nor its own
name — so `includes` does not contain *exactly*
`path(state) ∪ {state.name}`. -/
theorem c5_counterexample :
    registerState 2 initFactory { name := "a" } = .ok factoryA ∧
    lookupState factoryA "a" = some recA ∧
    "" ∈ recA.includes ∧ ("" ∈ recA.path → False) ∧ "" ≠ recA.name :=
  ⟨rfl, rfl, by decide, by decide, by decide⟩

/-- Record stored for `{name: "a.b", parent: "c", url: <matcher>,
views: null}` while `"a"` is registered and `"c"` is not: the explicit
parent resolves to `undefined`, yet the pipeline completes (the matcher
URL and null views dodge every unguarded `state.parent` read), storing
a record whose includes is just its own name — without the root's empty
name — and whose path is empty. -/
def recDangling : StateRec :=
  { name := "a.b"
    parent := none
    data := none
    url := some (.compile "/m")
    navigable := some "a.b"
    params := []
    ownParams := []
    views := []
    path := []
    includes := ["a.b"]
    abstract := false }

def factoryDangling : Factory :=
  { states := [("", rootRec), ("a", recA), ("a.b", recDangling)]
    queue := [] }

theorem factoryDangling_run :
    runAll initFactory
      [{ name := "a" },
        { name := "a.b", parent := some "c", url := .mat (.compile "/m"),
          views := .nullv }] 2 = .ok factoryDangling := by
  rfl

/-- C5 amended: for every successfully registered state (explicit
parent fields included), includes contains every name on its path plus
its own name, and — whenever the root's empty name is a member, which
holds exactly when the ancestor chain reaches the root — nothing else
besides that empty name; a record stored without a resolved parent
(the root, or a state whose explicit parent resolved to undefined) has
includes exactly its own name and an empty path; and a record stored
with a resolved parent has includes exactly the parent's includes plus
its own name. -/
theorem c5_includes_exact :
    ∀ (ds : List Decl) (fuel : Nat) (F : Factory),
      runAll initFactory ds fuel = .ok F →
      ∀ n r, lookupState F n = some r →
        ((∀ m ∈ r.path, m ∈ r.includes) ∧ r.name ∈ r.includes) ∧
        ("" ∈ r.includes →
          ∀ m, m ∈ r.includes ↔ (m ∈ r.path ∨ m = r.name ∨ m = "")) ∧
        (r.parent = none → r.includes = [r.name] ∧ r.path = []) ∧
        (∀ pn, r.parent = some pn → ∃ p, lookupState F pn = some p ∧
          ∀ m, m ∈ r.includes ↔ (m ∈ p.includes ∨ m = r.name)) := by
  intro ds fuel F hrun n r hr
  have hQ := (runAll_preserve (D := fun _ => True)
    invC5_queue invC5_store ds fuel initFactory F invC5_initFactory
    (queuedOK_initFactory _) (by simp) hrun).1
  obtain ⟨h1, h2, h3, h4, h5, h6⟩ := hQ.2.2 n r hr
  refine ⟨⟨h1, h2⟩, h5, h3, ?_⟩
  intro pn hpn
  obtain ⟨p, hpl, hpm, -⟩ := h6 pn hpn
  exact ⟨p, hpl, hpm⟩

theorem c5_includes_exact_witness :
    ("" ∈ recA.includes ↔ ("" ∈ recA.path ∨ "" = recA.name ∨ "" = "")) ∧
    (recDangling.includes = [recDangling.name] ∧ recDangling.path = []) :=
  ⟨(c5_includes_exact [{ name := "a" }] 2 factoryA (by rfl)
      "a" recA (by rfl)).2.1 (by decide) "",
    (c5_includes_exact
      [{ name := "a" },
        { name := "a.b", parent := some "c", url := .mat (.compile "/m"),
          views := .nullv }] 2 factoryDangling (by rfl)
      "a.b" recDangling (by rfl)).2.2.1 (by rfl)⟩

/-! ## C1: order-independence of registration

Hypotheses on declaration sets: a set of declarations "forming a tree"
is formalised as declarations using the dotted-name convention (no
explicit `parent` fields), with well-formed names (non-empty
dot-separated segments, no `@`, no leading `^`), pairwise distinct
names, and the parent name of every declaration being either the
root's empty name or the name of another declaration of the set. -/

/-- Well-formed dotted hierarchical name. -/
def segsOK (s : String) : Prop :=
  (∀ seg ∈ jsSplitDot s, seg ≠ "") ∧ s.data.contains '@' = false ∧
  s.data.head? ≠ some '^'

theorem segsOK_ne_empty {s : String} (h : segsOK s) : s ≠ "" := by
  intro hs
  subst hs
  exact h.1 "" (by decide) rfl

theorem jsJoinDot_ne_empty :
    ∀ (l : List String), l ≠ [] → (∀ x ∈ l, x ≠ "") → jsJoinDot l ≠ "" := by
  intro l
  match l with
  | [] => intro h _; exact absurd rfl h
  | [x] =>
    intro _ hx
    exact hx x (by simp)
  | x :: y :: t =>
    intro _ _ hcontra
    have heq : jsJoinDot (x :: y :: t) = x ++ "." ++ jsJoinDot (y :: t) := rfl
    rw [heq] at hcontra
    have hdata := congrArg String.data hcontra
    rw [String.data_append, String.data_append,
      show (".").data = ['.'] from rfl] at hdata
    simp at hdata

theorem segsOK_not_relative {s : String} (h : segsOK s) :
    isRelative s = false := by
  unfold isRelative
  cases hd : s.data with
  | nil => rfl
  | cons c cs =>
    have hc1 : c ≠ '.' := by
      intro hc
      subst hc
      have hmem : "" ∈ jsSplitDot s := by
        unfold jsSplitDot
        rw [hd]
        unfold splitDotAux
        simp
      exact h.1 "" hmem rfl
    have hc2 : c ≠ '^' := by
      intro hc
      subst hc
      have := h.2.2
      rw [hd] at this
      simp at this
    simp [hc1, hc2]

theorem compositeParent_none_of_noDot {s : String} (h : hasDot s = false) :
    compositeParent s = none := by
  unfold compositeParent
  rw [if_neg]
  rintro ⟨hlen, -, -⟩
  rw [← hasDot_iff] at hlen
  rw [h] at hlen
  simp at hlen

/-- With well-formed segments and a dot in the name, the regex matches
and captures the part before the last dot. -/
theorem compositeParent_of_segsOK {s : String} (hs : segsOK s)
    (hdot : hasDot s = true) :
    compositeParent s = some (beforeLastDot s) := by
  unfold compositeParent
  rw [if_pos]
  refine ⟨(hasDot_iff s).1 hdot, ?_, ?_⟩
  · intro hlast
    obtain ⟨hne, hx⟩ := List.mem_getLast?_eq_getLast (by rw [hlast]; rfl)
    exact hs.1 "" (hx ▸ List.getLast_mem hne) rfl
  · unfold beforeLastDot
    apply jsJoinDot_ne_empty
    · have hlen := (hasDot_iff s).1 hdot
      intro hnil
      have := congrArg List.length hnil
      rw [List.length_dropLast] at this
      simp at this
      omega
    · intro x hx
      exact hs.1 x ((List.dropLast_sublist _).mem hx)

theorem queuePN_of_compositeParent {d : Decl} {pn : String}
    (_hD : d.parent = none) (h : compositeParent d.name = some pn) :
    queueParentName d = pn := by
  obtain ⟨hbld, hdot, -⟩ := compositeParent_eq h
  unfold queueParentName
  rw [hdot]
  simp [hbld]

theorem compositeParent_none_of_queuePN_empty {d : Decl}
    (_hD : d.parent = none) (hs : segsOK d.name)
    (h : queueParentName d = "") : compositeParent d.name = none := by
  by_cases hdot : hasDot d.name = true
  · exfalso
    unfold queueParentName at h
    rw [hdot] at h
    simp at h
    have hne : beforeLastDot d.name ≠ "" := by
      unfold beforeLastDot
      apply jsJoinDot_ne_empty
      · have hlen := (hasDot_iff d.name).1 hdot
        intro hnil
        have := congrArg List.length hnil
        rw [List.length_dropLast] at this
        simp at this
        omega
      · intro x hx
        exact hs.1 x ((List.dropLast_sublist _).mem hx)
    exact hne h
  · exact compositeParent_none_of_noDot (by simpa using hdot)

theorem resolveState_name {F : Factory} {d : Decl} {r : StateRec}
    (h : resolveState F d = .ok r) : r.name = d.name := by
  obtain ⟨p, dt, u, ps, vs, os, -, -, -, -, -, -, rfl⟩ := resolveState_ok_inv h
  rfl

/-- The navigable name of a resolved record is the record's own name
or comes from a stored record. -/
theorem resolveState_nav {F : Factory} {d : Decl} {r : StateRec}
    (h : resolveState F d = .ok r) :
    ∀ m, r.navigable = some m →
      m = d.name ∨ ∃ y p, lookupState F y = some p ∧ p.navigable = some m := by
  obtain ⟨parent, dt, url, ps, vs, os, hp, -, -, -, -, -, rfl⟩ :=
    resolveState_ok_inv h
  intro m hm
  simp only [SB.navigable] at hm
  cases url with
  | some mt =>
    simp at hm
    exact Or.inl hm.symm
  | none =>
    cases parent with
    | none => simp at hm
    | some p =>
      simp at hm
      obtain ⟨y, hy⟩ := SB_parent_ok_some hp
      exact Or.inr ⟨y, p, hy, hm⟩

/-- Provenance of a parent record resolved without an explicit parent
field: it is the lookup of the regex capture, or the root. -/
theorem SB_parent_provenance {G : Factory} {d : Decl} {p : StateRec}
    (hD : d.parent = none) (hpG : SB.parent G d = .ok (some p)) :
    (∃ pn, compositeParent d.name = some pn ∧ lookupState G pn = some p) ∨
    (compositeParent d.name = none ∧ lookupState G "" = some p) := by
  unfold SB.parent at hpG
  simp only [hD] at hpG
  unfold parentFallback at hpG
  cases hcpc : compositeParent d.name with
  | none =>
    simp only [hcpc] at hpG
    injection hpG with h2
    exact Or.inr ⟨rfl, h2⟩
  | some pn =>
    simp only [hcpc] at hpG
    by_cases hrel : isRelative pn = true
    · unfold findStateE at hpG
      rw [if_pos hrel] at hpG
      simp at hpG
    · rw [findStateE_absolute (by simpa using hrel)] at hpG
      injection hpG with h2
      exact Or.inl ⟨pn, rfl, h2⟩

/-- Locality of the pipeline: the result of `resolveState` depends on
the factory only through the lookups of the regex capture, of the
root, and of the parent's navigable name. -/
theorem resolveState_locality {F G : Factory} {d : Decl}
    (hD : d.parent = none)
    (hcp : ∀ pn, compositeParent d.name = some pn →
      lookupState F pn = lookupState G pn)
    (hroot : lookupState F "" = lookupState G "")
    (hnav1 : ∀ pn p m, compositeParent d.name = some pn →
      lookupState G pn = some p → p.navigable = some m →
      lookupState F m = lookupState G m)
    (hnav2 : ∀ p m, compositeParent d.name = none →
      lookupState G "" = some p → p.navigable = some m →
      lookupState F m = lookupState G m) :
    resolveState F d = resolveState G d := by
  have hfb : parentFallback F d.name = parentFallback G d.name := by
    unfold parentFallback
    cases hcpc : compositeParent d.name with
    | none =>
      simp only [hcpc, rootOf]
      rw [hroot]
    | some pn =>
      simp only [hcpc]
      by_cases hrel : isRelative pn = true
      · unfold findStateE
        rw [if_pos hrel, if_pos hrel]
      · rw [findStateE_absolute (by simpa using hrel),
          findStateE_absolute (by simpa using hrel), hcp pn hcpc]
  have hpar : SB.parent F d = SB.parent G d := by
    unfold SB.parent
    simp only [hD]
    exact hfb
  have hnavUse : ∀ parent, SB.parent G d = .ok parent →
      SB.url F parent d.url d.name = SB.url G parent d.url d.name := by
    intro parent hpG
    cases d.url with
    | str s =>
      simp only [SB.url]
      by_cases hhat : s.data.head? = some '^'
      · rw [if_pos hhat, if_pos hhat]
      · rw [if_neg hhat, if_neg hhat]
        cases parent with
        | none => rfl
        | some p =>
          simp only [SB.urlRel]
          have hprov := SB_parent_provenance hD hpG
          have hbase : navBasis F p = navBasis G p := by
            unfold navBasis
            cases hpn : p.navigable with
            | some nn =>
              have hmm : lookupState F nn = lookupState G nn := by
                rcases hprov with ⟨pn, hc, hl⟩ | ⟨hc, hl⟩
                · exact hnav1 pn p nn hc hl hpn
                · exact hnav2 p nn hc hl hpn
              exact hmm
            | none =>
              exact hroot
          rw [hbase]
    | mat m => rfl
    | nullv => rfl
    | undef => rfl
  unfold resolveState
  rw [hpar]
  cases hpG : SB.parent G d with
  | error e => rfl
  | ok parent =>
    show resolveAfterParent F parent d = resolveAfterParent G parent d
    unfold resolveAfterParent
    rw [hnavUse parent hpG]

theorem lookupState_store_isSome (F : Factory) (n : String) (r : StateRec)
    (n' : String) :
    (lookupState (storeState F n r) n').isSome ↔
      ((lookupState F n').isSome ∨ n' = n) := by
  unfold lookupState storeState
  rw [List.find?_append]
  cases hf : F.states.find? (fun kv => kv.1 = n') with
  | some kv => simp
  | none =>
    simp only [Option.or]
    by_cases hn : n = n'
    · subst hn
      simp [List.find?]
    · simp [List.find?, hn, Ne.symm hn]

theorem filter_length_mono {α : Type} (p p' : α → Bool)
    (himp : ∀ x, p' x = true → p x = true) :
    ∀ l : List α, (l.filter p').length ≤ (l.filter p).length := by
  intro l
  induction l with
  | nil => simp
  | cons a t ih =>
    rw [List.filter_cons, List.filter_cons]
    cases hpa' : p' a
    · cases hpa : p a
      · simp [hpa, hpa']
        omega
      · simp [hpa, hpa']
        omega
    · rw [himp a hpa']
      simp
      omega

theorem length_filter_lt {α : Type} (l : List α) (p p' : α → Bool)
    (himp : ∀ x, p' x = true → p x = true) (x0 : α) (hx0 : x0 ∈ l)
    (hp : p x0 = true) (hp' : p' x0 = false) :
    (l.filter p').length < (l.filter p).length := by
  induction l with
  | nil => simp at hx0
  | cons a t ih =>
    rw [List.filter_cons, List.filter_cons]
    rcases List.mem_cons.1 hx0 with rfl | hmem
    · have hmono := filter_length_mono p p' himp t
      simp [hp, hp']
      omega
    · have hih := ih hmem
      cases hpa' : p' a
      · cases hpa : p a
        · simp [hpa, hpa']
          omega
        · simp [hpa, hpa']
          omega
      · rw [himp a hpa']
        simp
        omega

/-- All declarations sitting in the queue, bucket by bucket. -/
def allQueued (F : Factory) : List Decl :=
  (F.queue.map Prod.snd).flatten

/-- Number of queued declarations not yet resolved into the registry. -/
def pendingCount (F : Factory) : Nat :=
  ((allQueued F).filter (fun e => (lookupState F e.name).isNone)).length

theorem mem_allQueued_of_bucket {F : Factory} {b : String} {e : Decl}
    (h : e ∈ queueBucket F b) : e ∈ allQueued F := by
  unfold queueBucket at h
  cases hf : F.queue.find? (fun kv => kv.1 = b) with
  | none => rw [hf] at h; simp at h
  | some kv =>
    rw [hf] at h
    simp at h
    have hkv := List.mem_of_find?_eq_some hf
    unfold allQueued
    rw [List.mem_flatten]
    exact ⟨kv.2, List.mem_map_of_mem Prod.snd hkv, h⟩

theorem allQueued_store (F : Factory) (n : String) (r : StateRec) :
    allQueued (storeState F n r) = allQueued F := rfl

theorem pendingCount_store_lt {F : Factory} {n : String} {r : StateRec}
    {e : Decl} (he : e ∈ allQueued F) (hname : e.name = n)
    (hfresh : lookupState F n = none) :
    pendingCount (storeState F n r) < pendingCount F := by
  unfold pendingCount
  rw [allQueued_store]
  apply length_filter_lt (allQueued F)
    (fun e => (lookupState F e.name).isNone)
    (fun e => (lookupState (storeState F n r) e.name).isNone)
    ?_ e he ?_ ?_
  · intro x hx
    simp only [Option.isNone_iff_eq_none] at hx ⊢
    cases hl : lookupState F x.name with
    | none => rfl
    | some rx =>
      rw [lookupState_store_preserved n r hl] at hx
      simp at hx
  · show (lookupState F e.name).isNone = true
    rw [hname, hfresh]
    rfl
  · show (lookupState (storeState F n r) e.name).isNone = false
    rw [hname, lookupState_store_self r hfresh]
    rfl

theorem pendingCount_mono_le {F F' : Factory}
    (hq : F'.queue = F.queue) (hmono : monoLook F F') :
    pendingCount F' ≤ pendingCount F := by
  unfold pendingCount
  have hqa : allQueued F' = allQueued F := by
    unfold allQueued
    rw [hq]
  rw [hqa]
  apply filter_length_mono
  intro x hx
  simp only [Option.isNone_iff_eq_none] at hx ⊢
  cases hl : lookupState F x.name with
  | none => rfl
  | some rx =>
    rw [hmono x.name rx hl] at hx
    simp at hx

/-- With pairwise distinct names, declarations of the set are
determined by their names. -/
theorem ds_name_inj {ds : List Decl} (hnd : (ds.map (·.name)).Nodup)
    {e1 e2 : Decl} (h1 : e1 ∈ ds) (h2 : e2 ∈ ds) (hn : e1.name = e2.name) :
    e1 = e2 :=
  List.inj_on_of_nodup_map hnd h1 h2 hn

/-- A set of declarations forming a tree under the dotted-name
convention: no explicit parent fields, well-formed pairwise-distinct
names, every parent name either the root's empty name or the name of
another declaration. -/
def TreeDecls (ds : List Decl) : Prop :=
  (∀ d ∈ ds, d.parent = none ∧ segsOK d.name) ∧
  (ds.map (·.name)).Nodup ∧
  (∀ d ∈ ds, queueParentName d = "" ∨ queueParentName d ∈ ds.map (·.name))

/-- Topological (parent-first) order: every declaration's parent name
is the root or the name of an earlier declaration. -/
def TopoOrdered (ds : List Decl) : Prop :=
  ∀ i : Fin ds.length, queueParentName (ds.get i) = "" ∨
    ∃ j : Fin ds.length, j.val < i.val ∧
      (ds.get j).name = queueParentName (ds.get i)

/-- Children-first order: no declaration's parent name appears among
the earlier declarations. -/
def ChildFirst (L : List Decl) : Prop :=
  ∀ i : Fin L.length, queueParentName (L.get i) = "" ∨
    ∀ j : Fin L.length, j.val < i.val →
      (L.get j).name ≠ queueParentName (L.get i)

/-- Decomposition form of topological ordering: at any split of the
list, the split declaration's parent name is the root or occurs in the
prefix. -/
theorem topoOrdered_split {ds : List Decl} (h : TopoOrdered ds)
    (P : List Decl) (d : Decl) (rest : List Decl)
    (hds : ds = P ++ d :: rest) :
    queueParentName d = "" ∨ queueParentName d ∈ P.map (·.name) := by
  subst hds
  have hlen : P.length < (P ++ d :: rest).length := by simp
  have hget : (P ++ d :: rest).get ⟨P.length, hlen⟩ = d := by
    rw [List.get_eq_getElem, List.getElem_append_right (le_refl P.length)]
    simp
  rcases h ⟨P.length, hlen⟩ with h0 | ⟨j, hj, hname⟩
  · rw [hget] at h0
    exact Or.inl h0
  · right
    rw [hget] at hname
    have hjP : j.val < P.length := hj
    have hgj : (P ++ d :: rest).get j = P.get ⟨j.val, hjP⟩ := by
      simp [List.get_eq_getElem]
      rw [List.getElem_append_left hjP]
    rw [hgj] at hname
    rw [← hname]
    exact List.mem_map_of_mem _ (P.get_mem _ hjP)

theorem queueBucket_of_queue_nil {F : Factory} (h : F.queue = []) (n : String) :
    queueBucket F n = [] := by
  unfold queueBucket
  rw [h]
  rfl

/-- Invariant of the topological run: empty queue, the registry holds
exactly the root and the processed prefix, and every processed
declaration still resolves (against the current registry) to its
stored record. -/
def TI (P : List Decl) (F : Factory) : Prop :=
  F.queue = [] ∧
  lookupState F "" = some rootRec ∧
  (∀ n, (lookupState F n).isSome ↔ (n = "" ∨ n ∈ P.map (·.name))) ∧
  (∀ n r, lookupState F n = some r → r.name = n) ∧
  (∀ n r m, lookupState F n = some r → r.navigable = some m →
    (lookupState F m).isSome) ∧
  (∀ d ∈ P, ∃ r, resolveState F d = .ok r ∧ lookupState F d.name = some r)

theorem TI_init : TI [] initFactory := by
  refine ⟨rfl, rfl, ?_, ?_, ?_, ?_⟩
  · intro n
    constructor
    · intro h
      obtain ⟨r, hr⟩ := Option.isSome_iff_exists.1 h
      exact Or.inl (lookup_initFactory hr).1
    · rintro (rfl | h)
      · rfl
      · simp at h
  · intro n r h
    obtain ⟨rfl, rfl⟩ := lookup_initFactory h
    rfl
  · intro n r m h hm
    obtain ⟨rfl, rfl⟩ := lookup_initFactory h
    simp [rootRec] at hm
  · intro d hd
    simp at hd

/-- Storing a fresh record does not change any resolution whose reads
(regex capture, root, parent's navigable) were already registered. -/
theorem resolveState_store_stable {F : Factory} {n0 : String} {r0 : StateRec}
    {e : Decl} (hD : e.parent = none)
    (hroot : lookupState F "" = some rootRec)
    (hnavS : ∀ n r m, lookupState F n = some r → r.navigable = some m →
      (lookupState F m).isSome)
    (hcpS : ∀ pn, compositeParent e.name = some pn →
      (lookupState F pn).isSome) :
    resolveState (storeState F n0 r0) e = resolveState F e := by
  apply resolveState_locality hD
  · intro pn hc
    obtain ⟨p, hp⟩ := Option.isSome_iff_exists.1 (hcpS pn hc)
    rw [hp, lookupState_store_preserved _ _ hp]
  · rw [hroot, lookupState_store_preserved _ _ hroot]
  · intro pn p m hc hl hm
    have hms := hnavS pn p m hl hm
    obtain ⟨rm, hrm⟩ := Option.isSome_iff_exists.1 hms
    rw [hrm, lookupState_store_preserved _ _ hrm]
  · intro p m hc hl hm
    rw [hroot] at hl
    injection hl with hl2
    subst hl2
    simp [rootRec] at hm

/-- Stepping the topological-run invariant over the full remaining
suffix. -/
theorem topo_run_aux {ds : List Decl} (hT : TreeDecls ds)
    (hTopo : TopoOrdered ds) :
    ∀ (rest P : List Decl), P ++ rest = ds →
      ∀ (F : Factory) (fuel : Nat) (Ftop : Factory),
        TI P F → runAll F rest fuel = .ok Ftop → TI ds Ftop := by
  intro rest
  induction rest with
  | nil =>
    intro P hP F fuel Ftop hTI hrun
    unfold runAll at hrun
    cases hrun
    rw [List.append_nil] at hP
    rw [← hP]
    exact hTI
  | cons d rest' ih =>
    intro P hP F fuel Ftop hTI hrun
    rw [runAll_cons] at hrun
    cases hre : registerState fuel F d with
    | error err => rw [hre] at hrun; simp at hrun
    | ok F1 =>
      rw [hre] at hrun
      obtain ⟨hq0, hroot, hdom, hnames, hnav, hres⟩ := hTI
      have hdmem : d ∈ ds := by
        rw [← hP]
        simp
      obtain ⟨hD, hsegs⟩ := hT.1 d hdmem
      cases fuel with
      | zero => simp [registerState] at hre
      | succ fuel' =>
        obtain ⟨hv, hfresh, hcase⟩ := registerState_ok_inv hre
        have hparent_earlier : queueParentName d = "" ∨
            queueParentName d ∈ P.map (·.name) :=
          topoOrdered_split hTopo P d rest' hP.symm
        rcases hcase with ⟨hne, hnone, -⟩ | ⟨hguard, r, hresd, hdrain⟩
        · exfalso
          rcases hparent_earlier with hp0 | hpP
          · exact hne hp0
          · have : (lookupState F (queueParentName d)).isSome :=
              (hdom _).2 (Or.inr hpP)
            rw [hnone] at this
            simp at this
        · rw [queueBucket_of_queue_nil hq0] at hdrain
          unfold drainWith at hdrain
          injection hdrain with hdrain2
          subst hdrain2
          -- F1 = storeState F d.name r
          have hcpSd : ∀ pn, compositeParent d.name = some pn →
              (lookupState F pn).isSome := by
            intro pn hc
            have hqpn := queuePN_of_compositeParent hD hc
            rcases hguard with hg | hg
            · rw [hg] at hqpn
              obtain ⟨-, -, hne⟩ := compositeParent_eq hc
              exact absurd hqpn.symm hne
            · rwa [hqpn] at hg
          have hTI1 : TI (P ++ [d]) (storeState F d.name r) := by
            refine ⟨hq0, lookupState_store_preserved _ _ hroot, ?_, ?_, ?_, ?_⟩
            · intro n
              rw [lookupState_store_isSome, hdom n]
              simp [or_assoc]
            · intro n r0 h0
              rcases lookupState_store_cases h0 with hold | ⟨-, rfl, rfl⟩
              · exact hnames n r0 hold
              · exact resolveState_name hresd
            · intro n r0 m h0 hm
              rcases lookupState_store_cases h0 with hold | ⟨-, rfl, rfl⟩
              · rw [lookupState_store_isSome]
                exact Or.inl (hnav n r0 m hold hm)
              · rcases resolveState_nav hresd m hm with rfl | ⟨y, p, hy, hpm⟩
                · rw [lookupState_store_isSome]
                  exact Or.inr rfl
                · rw [lookupState_store_isSome]
                  exact Or.inl (hnav y p m hy hpm)
            · intro e he
              rcases List.mem_append.1 he with heP | heD
              · obtain ⟨re, hre2, hle⟩ := hres e heP
                obtain ⟨hDe, hsegse⟩ := hT.1 e (by rw [← hP]; simp [heP])
                have hcpSe : ∀ pn, compositeParent e.name = some pn →
                    (lookupState F pn).isSome := by
                  intro pn hc
                  have hqpn := queuePN_of_compositeParent hDe hc
                  obtain ⟨P1, P2, hsplit⟩ := List.append_of_mem heP
                  have hds : ds = P1 ++ e :: (P2 ++ d :: rest') := by
                    rw [← hP, hsplit]
                    simp
                  rcases topoOrdered_split hTopo P1 e (P2 ++ d :: rest') hds
                    with hg | hg
                  · rw [hg] at hqpn
                    obtain ⟨-, -, hne⟩ := compositeParent_eq hc
                    exact absurd hqpn.symm hne
                  · rw [hqpn] at hg
                    apply (hdom pn).2
                    right
                    have : P1.map (fun x => x.name) ⊆ P.map (fun x => x.name) := by
                      intro z hz
                      rw [hsplit]
                      simp at hz ⊢
                      obtain ⟨a, ha, haz⟩ := hz
                      exact Or.inl ⟨a, ha, haz⟩
                    exact this hg
                refine ⟨re, ?_, lookupState_store_preserved _ _ hle⟩
                rw [resolveState_store_stable hDe hroot hnav hcpSe]
                exact hre2
              · simp at heD
                subst heD
                refine ⟨r, ?_, lookupState_store_self r hfresh⟩
                rw [resolveState_store_stable hD hroot hnav hcpSd]
                exact hresd
          have hP1 : (P ++ [d]) ++ rest' = ds := by
            rw [← hP]
            simp
          have hrun2 : runAll (storeState F d.name r) rest' (fuel' + 1) =
              Except.ok Ftop := hrun
          exact ih (P ++ [d]) hP1 _ (fuel' + 1) Ftop hTI1 hrun2

/-- Characterization of a successful topological run: the final
registry holds exactly the root and the declared names, and every
declaration resolves against the final registry to its stored
record. -/
theorem topo_run {ds : List Decl} {fuel : Nat} {Ftop : Factory}
    (hT : TreeDecls ds) (hTopo : TopoOrdered ds)
    (hrun : runAll initFactory ds fuel = .ok Ftop) : TI ds Ftop :=
  topo_run_aux hT hTopo ds [] rfl initFactory fuel Ftop TI_init hrun

/-! ## Children-first simulation: queue bookkeeping helpers -/

theorem monoLook_isSome {F F' : Factory} (h : monoLook F F') {n : String}
    (hn : (lookupState F n).isSome) : (lookupState F' n).isSome := by
  obtain ⟨r, hr⟩ := Option.isSome_iff_exists.1 hn
  rw [h n r hr]
  rfl

theorem storeState_queue (F : Factory) (n : String) (r : StateRec) :
    (storeState F n r).queue = F.queue := rfl

theorem queueBucket_congr {F F' : Factory} (h : F'.queue = F.queue)
    (b : String) : queueBucket F' b = queueBucket F b := by
  unfold queueBucket
  rw [h]

theorem allQueued_congr {F F' : Factory} (h : F'.queue = F.queue) :
    allQueued F' = allQueued F := by
  unfold allQueued
  rw [h]

theorem one_le_pendingCount {H : Factory} {e : Decl}
    (he : e ∈ allQueued H) (hfresh : lookupState H e.name = none) :
    1 ≤ pendingCount H := by
  unfold pendingCount
  have : e ∈ (allQueued H).filter (fun e => (lookupState H e.name).isNone) := by
    rw [List.mem_filter]
    exact ⟨he, by rw [hfresh]; rfl⟩
  have := List.length_pos.2 (List.ne_nil_of_mem this)
  omega

theorem mem_queue_of_mem_allQueued {F : Factory} {e : Decl}
    (h : e ∈ allQueued F) : ∃ kv ∈ F.queue, e ∈ kv.2 := by
  unfold allQueued at h
  rw [List.mem_flatten] at h
  obtain ⟨bl, hbl, hebl⟩ := h
  rw [List.mem_map] at hbl
  obtain ⟨kv, hkv, rfl⟩ := hbl
  exact ⟨kv, hkv, hebl⟩

theorem bucket_mem_queue {F : Factory} {b : String} {e : Decl}
    (h : e ∈ queueBucket F b) : ∃ kv ∈ F.queue, kv.1 = b ∧ e ∈ kv.2 := by
  unfold queueBucket at h
  cases hf : F.queue.find? (fun kv => kv.1 = b) with
  | none => rw [hf] at h; simp at h
  | some kv =>
    rw [hf] at h
    simp at h
    have hkey := List.find?_some hf
    simp only [decide_eq_true_eq] at hkey
    exact ⟨kv, List.mem_of_find?_eq_some hf, hkey, h⟩

/-- With pairwise distinct bucket names, the bucket of a queue entry's
name is exactly its list. -/
theorem bucket_eq_of_mem {F : Factory}
    (hkeys : (F.queue.map Prod.fst).Nodup) {kv : String × List Decl}
    (hkv : kv ∈ F.queue) : queueBucket F kv.1 = kv.2 := by
  unfold queueBucket
  cases hf : F.queue.find? (fun kv' => kv'.1 = kv.1) with
  | none =>
    exfalso
    have := List.find?_eq_none.1 hf kv hkv
    simp at this
  | some kv0 =>
    have hkey := List.find?_some hf
    simp only [decide_eq_true_eq] at hkey
    have hmem0 := List.mem_of_find?_eq_some hf
    have : kv0 = kv :=
      List.inj_on_of_nodup_map hkeys hmem0 hkv hkey
    rw [this]
    rfl

theorem drainWith_cons (reg : Factory → Decl → Except RegError Factory)
    (F : Factory) (e : Decl) (rest : List Decl) :
    drainWith reg F (e :: rest) =
      match reg F e with
      | .error err => .error err
      | .ok F1 => drainWith reg F1 rest := rfl

/-- Membership in the queue after a `queueState`: an entry is an old
entry, the target bucket with the declaration appended, or a brand-new
singleton bucket. -/
theorem mem_queue_queueState {F : Factory} {pn : String} {d : Decl}
    {kv' : String × List Decl} (h : kv' ∈ (queueState F pn d).queue) :
    kv' ∈ F.queue ∨
    (∃ kv ∈ F.queue, kv.1 = pn ∧ kv' = (pn, kv.2 ++ [d])) ∨
    kv' = (pn, [d]) := by
  unfold queueState at h
  by_cases hf : (F.queue.find? (fun kv => kv.1 = pn)).isSome
  · rw [if_pos hf] at h
    simp only [List.mem_map] at h
    obtain ⟨kv, hkv, hmap⟩ := h
    by_cases hkey : kv.1 = pn
    · rw [if_pos hkey] at hmap
      right; left
      exact ⟨kv, hkv, hkey, by rw [← hmap, hkey]⟩
    · rw [if_neg hkey] at hmap
      exact Or.inl (hmap ▸ hkv)
  · rw [if_neg hf] at h
    simp only [List.mem_append, List.mem_singleton] at h
    rcases h with h | h
    · exact Or.inl h
    · exact Or.inr (Or.inr h)

theorem mem_allQueued_queueState {F : Factory} {pn : String} {d : Decl}
    {e : Decl} (h : e ∈ allQueued (queueState F pn d)) :
    e ∈ allQueued F ∨ e = d := by
  obtain ⟨kv', hkv', he⟩ := mem_queue_of_mem_allQueued h
  have memOf : ∀ kv ∈ F.queue, e ∈ kv.2 → e ∈ allQueued F := by
    intro kv hkv hekv
    unfold allQueued
    rw [List.mem_flatten]
    exact ⟨kv.2, List.mem_map_of_mem Prod.snd hkv, hekv⟩
  rcases mem_queue_queueState hkv' with hold | ⟨kv, hkv, -, rfl⟩ | rfl
  · exact Or.inl (memOf kv' hold he)
  · simp only [List.mem_append, List.mem_singleton] at he
    rcases he with he | rfl
    · exact Or.inl (memOf kv hkv he)
    · exact Or.inr rfl
  · simp at he
    exact Or.inr he

theorem queueState_keys_nodup {F : Factory} {pn : String} {d : Decl}
    (h : (F.queue.map Prod.fst).Nodup) :
    ((queueState F pn d).queue.map Prod.fst).Nodup := by
  unfold queueState
  by_cases hf : (F.queue.find? (fun kv => kv.1 = pn)).isSome
  · rw [if_pos hf]
    have : (F.queue.map (fun kv =>
        if kv.1 = pn then (kv.1, kv.2 ++ [d]) else kv)).map Prod.fst =
        F.queue.map Prod.fst := by
      rw [List.map_map]
      apply List.map_congr_left
      intro kv hkv
      by_cases hkey : kv.1 = pn
      · simp [hkey]
      · simp [hkey]
    simpa [this] using h
  · rw [if_neg hf]
    rw [List.map_append]
    rw [List.nodup_append]
    refine ⟨h, by simp, ?_⟩
    intro x hx hx2
    simp at hx2
    subst hx2
    rw [List.mem_map] at hx
    obtain ⟨kv, hkv, hkey⟩ := hx
    rw [Option.not_isSome_iff_eq_none] at hf
    have := List.find?_eq_none.1 hf kv hkv
    simp [hkey] at this

theorem lookupState_store_none {F : Factory} {n : String} {r : StateRec}
    {n' : String} (h1 : lookupState F n' = none) (h2 : n' ≠ n) :
    lookupState (storeState F n r) n' = none := by
  rw [Option.eq_none_iff_forall_not_mem]
  intro r' hr'
  rcases lookupState_store_cases (Option.mem_def.1 hr') with hold | ⟨-, hn, -⟩
  · rw [h1] at hold
    exact Option.noConfusion hold
  · exact h2 hn

/-- Core invariant of a factory reachable by registering declarations
of the tree `ds` in any order, relative to the topological result
`Ftop`: the root is stored, every stored record agrees with `Ftop`,
only declared names get stored, navigable references are stored, and
the queue holds tree declarations bucketed under their parent names,
without duplicates, with the entries of an unstored bucket
unstored. -/
structure CCm (ds : List Decl) (Ftop G : Factory) : Prop where
  root : lookupState G "" = some rootRec
  agree : monoLook G Ftop
  domSub : ∀ n, (lookupState G n).isSome → n = "" ∨ n ∈ ds.map (·.name)
  navStored : ∀ n r m, lookupState G n = some r → r.navigable = some m →
    (lookupState G m).isSome
  queued : ∀ kv ∈ G.queue, ∀ e ∈ kv.2, e ∈ ds ∧ queueParentName e = kv.1
  bucketNodup : ∀ kv ∈ G.queue, kv.2.Nodup
  unstoredUnder : ∀ kv ∈ G.queue, lookupState G kv.1 = none →
    ∀ e ∈ kv.2, lookupState G e.name = none
  keysNodup : (G.queue.map Prod.fst).Nodup

/-- The name is carried by some queued declaration whose own bucket
name is not yet stored. -/
def qUnderUnstored (G : Factory) (n : String) : Prop :=
  ∃ e, e ∈ allQueued G ∧ e.name = n ∧
    lookupState G (queueParentName e) = none

theorem bucket_queued {ds : List Decl} {Ftop G : Factory}
    (hCC : CCm ds Ftop G) {b : String} {e : Decl}
    (h : e ∈ queueBucket G b) : e ∈ ds ∧ queueParentName e = b := by
  obtain ⟨kv, hkv, hkv1, hekv⟩ := bucket_mem_queue h
  obtain ⟨h1, h2⟩ := hCC.queued kv hkv e hekv
  exact ⟨h1, by rw [h2, hkv1]⟩

theorem bucket_nodup {ds : List Decl} {Ftop G : Factory}
    (hCC : CCm ds Ftop G) (b : String) : (queueBucket G b).Nodup := by
  unfold queueBucket
  cases hf : G.queue.find? (fun kv => kv.1 = b) with
  | none => simp
  | some kv => exact hCC.bucketNodup kv (List.mem_of_find?_eq_some hf)

/-- Against a factory satisfying the core invariant, a tree
declaration with a registered parent name resolves exactly to its
canonical record of the topological result. -/
theorem resolve_canonical {ds : List Decl} {Ftop : Factory}
    (hT : TreeDecls ds) (hTI : TI ds Ftop) {G : Factory} {e : Decl}
    (hCC : CCm ds Ftop G) (heds : e ∈ ds)
    (hpst : (lookupState G (queueParentName e)).isSome) :
    ∃ r, resolveState G e = .ok r ∧ lookupState Ftop e.name = some r := by
  obtain ⟨hD, hsegs⟩ := hT.1 e heds
  obtain ⟨-, htroot, -, -, -, htres⟩ := hTI
  obtain ⟨r, hres, hlook⟩ := htres e heds
  refine ⟨r, ?_, hlook⟩
  rw [← hres]
  apply resolveState_locality hD
  · intro pn hc
    have hq := queuePN_of_compositeParent hD hc
    rw [hq] at hpst
    obtain ⟨p, hp⟩ := Option.isSome_iff_exists.1 hpst
    rw [hp, hCC.agree pn p hp]
  · rw [hCC.root, htroot]
  · intro pn p m hc hlF hm
    have hq := queuePN_of_compositeParent hD hc
    rw [hq] at hpst
    obtain ⟨p', hp'⟩ := Option.isSome_iff_exists.1 hpst
    have hpF : lookupState Ftop pn = some p' := hCC.agree pn p' hp'
    rw [hpF] at hlF
    injection hlF with hpp
    rw [hpp] at hp'
    have hms := hCC.navStored pn p m hp' hm
    obtain ⟨rm, hrm⟩ := Option.isSome_iff_exists.1 hms
    rw [hrm, hCC.agree m rm hrm]
  · intro p m hc hl hm
    rw [htroot] at hl
    injection hl with hl2
    subst hl2
    simp [rootRec] at hm

/-- Storing the canonical record of a tree declaration preserves the
core invariant. -/
theorem CCm_store {ds : List Decl} {Ftop : Factory} (hT : TreeDecls ds)
    {G : Factory} {e : Decl} {r : StateRec}
    (hCC : CCm ds Ftop G) (heds : e ∈ ds)
    (hpst : (lookupState G (queueParentName e)).isSome)
    (hres : resolveState G e = .ok r)
    (hlookTop : lookupState Ftop e.name = some r) :
    CCm ds Ftop (storeState G e.name r) := by
  refine ⟨?_, ?_, ?_, ?_, ?_, ?_, ?_, ?_⟩
  · exact lookupState_store_preserved _ _ hCC.root
  · intro n r0 h0
    rcases lookupState_store_cases h0 with hold | ⟨-, rfl, rfl⟩
    · exact hCC.agree n r0 hold
    · exact hlookTop
  · intro n hn
    rw [lookupState_store_isSome] at hn
    rcases hn with hn | rfl
    · exact hCC.domSub n hn
    · exact Or.inr (List.mem_map_of_mem _ heds)
  · intro n r0 m h0 hm
    rcases lookupState_store_cases h0 with hold | ⟨-, rfl, rfl⟩
    · rw [lookupState_store_isSome]
      exact Or.inl (hCC.navStored n r0 m hold hm)
    · rcases resolveState_nav hres m hm with rfl | ⟨y, p, hy, hpm⟩
      · rw [lookupState_store_isSome]
        exact Or.inr rfl
      · rw [lookupState_store_isSome]
        exact Or.inl (hCC.navStored y p m hy hpm)
  · intro kv hkv e0 he0
    exact hCC.queued kv hkv e0 he0
  · intro kv hkv
    exact hCC.bucketNodup kv hkv
  · intro kv hkv hkv1 e0 he0
    have hkv1G : lookupState G kv.1 = none := by
      cases hl : lookupState G kv.1 with
      | none => rfl
      | some p =>
        rw [lookupState_store_preserved _ _ hl] at hkv1
        exact Option.noConfusion hkv1
    have he0G : lookupState G e0.name = none :=
      hCC.unstoredUnder kv hkv hkv1G e0 he0
    have hne : e0.name ≠ e.name := by
      intro heq
      obtain ⟨he0ds, he0pn⟩ := hCC.queued kv hkv e0 he0
      have he0e : e0 = e := ds_name_inj hT.2.1 he0ds heds heq
      subst he0e
      rw [← he0pn] at hkv1G
      rw [hkv1G] at hpst
      simp at hpst
    exact lookupState_store_none he0G hne
  · exact hCC.keysNodup

/-- The entries of the just-stored name's bucket are tree declarations
that are fresh, have their parent name (the just-stored name) in the
registry, and sit in their own bucket. -/
theorem bucket_entry_hyps {ds : List Decl} {Ftop : Factory}
    (hT : TreeDecls ds) {G : Factory} {e : Decl} (hCC : CCm ds Ftop G)
    (heds : e ∈ ds) (hfresh : lookupState G e.name = none)
    (hpst : (lookupState G (queueParentName e)).isSome) (r : StateRec) :
    ∀ e' ∈ queueBucket (storeState G e.name r) e.name,
      e' ∈ ds ∧ lookupState (storeState G e.name r) e'.name = none ∧
        (lookupState (storeState G e.name r) (queueParentName e')).isSome ∧
        e' ∈ queueBucket (storeState G e.name r) (queueParentName e') := by
  intro e' he'
  rw [queueBucket_storeState] at he'
  obtain ⟨he'ds, he'pn⟩ := bucket_queued hCC he'
  have he'G : lookupState G e'.name = none := by
    obtain ⟨kv, hkv, hkv1, hekv⟩ := bucket_mem_queue he'
    exact hCC.unstoredUnder kv hkv (by rw [hkv1]; exact hfresh) e' hekv
  have hne : e'.name ≠ e.name := by
    intro heq
    have he'e : e' = e := ds_name_inj hT.2.1 he'ds heds heq
    subst he'e
    rw [he'pn] at hpst
    rw [hfresh] at hpst
    simp at hpst
  refine ⟨he'ds, lookupState_store_none he'G hne, ?_, ?_⟩
  · rw [he'pn, lookupState_store_isSome]
    exact Or.inr rfl
  · rw [he'pn, queueBucket_storeState]
    exact he'

theorem qUU_store_mono {G : Factory} {n0 : String} {r0 : StateRec}
    {n : String} (h : qUnderUnstored (storeState G n0 r0) n) :
    qUnderUnstored G n := by
  obtain ⟨e, he, hname, hun⟩ := h
  rw [allQueued_store] at he
  refine ⟨e, he, hname, ?_⟩
  cases hl : lookupState G (queueParentName e) with
  | none => rfl
  | some p =>
    rw [lookupState_store_preserved _ _ hl] at hun
    exact Option.noConfusion hun

theorem qUU_congr_mono {G G' : Factory} (hq : G'.queue = G.queue)
    (hmono : monoLook G G') {n : String}
    (h : qUnderUnstored G' n) : qUnderUnstored G n := by
  obtain ⟨e, he, hname, hun⟩ := h
  rw [allQueued_congr hq] at he
  refine ⟨e, he, hname, ?_⟩
  cases hl : lookupState G (queueParentName e) with
  | none => rfl
  | some p =>
    rw [hmono _ _ hl] at hun
    exact Option.noConfusion hun

theorem bucketNames_qUU {ds : List Decl} {Ftop G : Factory}
    (hCC : CCm ds Ftop G) {b : String} (hb : lookupState G b = none)
    {n : String} (h : n ∈ (queueBucket G b).map (·.name)) :
    qUnderUnstored G n := by
  rw [List.mem_map] at h
  obtain ⟨e, he, rfl⟩ := h
  obtain ⟨-, hpn⟩ := bucket_queued hCC he
  exact ⟨e, mem_allQueued_of_bucket he, rfl, by rw [hpn]; exact hb⟩

/-- Simulation of the queued-children drain: draining any list of
fresh tree declarations whose parent names are registered succeeds
(with enough fuel), stores exactly their canonical records plus those
of recursively unblocked descendants, preserves the core invariant,
never touches the queue, and fully drains the buckets of every newly
stored name. -/
theorem drain_sim {ds : List Decl} {Ftop : Factory}
    (hT : TreeDecls ds) (hTI : TI ds Ftop) :
    ∀ N : Nat, ∀ H : Factory, ∀ l : List Decl,
      pendingCount H ≤ N → CCm ds Ftop H →
      (∀ e ∈ l, e ∈ ds ∧ lookupState H e.name = none ∧
        (lookupState H (queueParentName e)).isSome ∧
        e ∈ queueBucket H (queueParentName e)) →
      l.Nodup →
      ∃ H', (∃ f0, ∀ f, f0 ≤ f → drainWith (registerState f) H l = .ok H') ∧
        CCm ds Ftop H' ∧ monoLook H H' ∧ H'.queue = H.queue ∧
        (∀ e ∈ l, (lookupState H' e.name).isSome) ∧
        (∀ n, (lookupState H' n).isSome → (lookupState H n).isSome ∨
          n ∈ l.map (·.name) ∨ qUnderUnstored H n) ∧
        (∀ b, lookupState H b = none → (lookupState H' b).isSome →
          ∀ e0 ∈ queueBucket H' b, (lookupState H' e0.name).isSome) := by
  intro N
  induction N with
  | zero =>
    intro H l hN hCC hl hnd
    cases l with
    | nil =>
      refine ⟨H, ⟨0, fun f hf => rfl⟩, hCC, monoLook_rfl H, rfl, ?_, ?_, ?_⟩
      · intro e he
        exact absurd he (List.not_mem_nil e)
      · intro n hn
        exact Or.inl hn
      · intro b hb hb' e0 he0
        rw [hb] at hb'
        simp at hb'
    | cons e1 rest =>
      exfalso
      obtain ⟨-, h1fresh, -, h1bucket⟩ := hl e1 (List.mem_cons_self e1 rest)
      have := one_le_pendingCount (mem_allQueued_of_bucket h1bucket) h1fresh
      omega
  | succ N ih =>
    intro H l hN hCC hl hnd
    cases l with
    | nil =>
      refine ⟨H, ⟨0, fun f hf => rfl⟩, hCC, monoLook_rfl H, rfl, ?_, ?_, ?_⟩
      · intro e he
        exact absurd he (List.not_mem_nil e)
      · intro n hn
        exact Or.inl hn
      · intro b hb hb' e0 he0
        rw [hb] at hb'
        simp at hb'
    | cons e1 rest =>
      obtain ⟨h1ds, h1fresh, h1pst, h1bucket⟩ := hl e1 (List.mem_cons_self e1 rest)
      obtain ⟨r1, hres1, hlookTop1⟩ := resolve_canonical hT hTI hCC h1ds h1pst
      have hCC1 : CCm ds Ftop (storeState H e1.name r1) :=
        CCm_store hT hCC h1ds h1pst hres1 hlookTop1
      have hcount1 : pendingCount (storeState H e1.name r1) < pendingCount H :=
        pendingCount_store_lt (mem_allQueued_of_bucket h1bucket) rfl h1fresh
      have hcount1le : pendingCount (storeState H e1.name r1) ≤ N := by omega
      have hentry := bucket_entry_hyps hT hCC h1ds h1fresh h1pst r1
      have hndl1 : (queueBucket (storeState H e1.name r1) e1.name).Nodup :=
        bucket_nodup hCC1 e1.name
      obtain ⟨H2, ⟨fs, hfs⟩, hCC2, hmono12, hq12, hstored1, hNS1, hNRN1⟩ :=
        ih (storeState H e1.name r1)
          (queueBucket (storeState H e1.name r1) e1.name)
          hcount1le hCC1 hentry hndl1
      have hmono01 : monoLook H (storeState H e1.name r1) :=
        fun n r h => lookupState_store_preserved _ _ h
      have hmono02 : monoLook H H2 := monoLook_comp hmono01 hmono12
      have hq02 : H2.queue = H.queue := by rw [hq12]; rfl
      have hcount2 : pendingCount H2 ≤ N :=
        le_trans (pendingCount_mono_le hq12 hmono12) hcount1le
      have hlrest : ∀ e ∈ rest, e ∈ ds ∧ lookupState H2 e.name = none ∧
          (lookupState H2 (queueParentName e)).isSome ∧
          e ∈ queueBucket H2 (queueParentName e) := by
        intro e' he'
        obtain ⟨heds, hfresh', hpst', hbucket'⟩ :=
          hl e' (List.mem_cons_of_mem e1 he')
        refine ⟨heds, ?_, monoLook_isSome hmono02 hpst', ?_⟩
        · cases hH2 : lookupState H2 e'.name with
          | none => rfl
          | some r' =>
            exfalso
            have hsome : (lookupState H2 e'.name).isSome := by
              rw [hH2]; rfl
            rcases hNS1 e'.name hsome with hG1 | hln | hqu
            · rw [lookupState_store_isSome] at hG1
              rcases hG1 with hH | heq
              · rw [hfresh'] at hH
                simp at hH
              · have he'e1 : e' = e1 := ds_name_inj hT.2.1 heds h1ds heq
                subst he'e1
                exact (List.nodup_cons.1 hnd).1 he'
            · rw [queueBucket_storeState] at hln
              rw [List.mem_map] at hln
              obtain ⟨e'', he''bucket, he''name⟩ := hln
              obtain ⟨he''ds, he''pn⟩ := bucket_queued hCC he''bucket
              have he''e' : e'' = e' := ds_name_inj hT.2.1 he''ds heds he''name
              subst he''e'
              rw [he''pn] at hpst'
              rw [h1fresh] at hpst'
              simp at hpst'
            · have hqH : qUnderUnstored H e'.name := qUU_store_mono hqu
              obtain ⟨e'', he''q, he''name, he''un⟩ := hqH
              obtain ⟨kv, hkv, he''kv⟩ := mem_queue_of_mem_allQueued he''q
              obtain ⟨he''ds, -⟩ := hCC.queued kv hkv e'' he''kv
              have he''e' : e'' = e' := ds_name_inj hT.2.1 he''ds heds he''name
              subst he''e'
              rw [he''un] at hpst'
              simp at hpst'
        · rw [queueBucket_congr hq02]
          exact hbucket'
      obtain ⟨H', ⟨ft, hft⟩, hCC', hmono2, hq2, hstored2, hNS2, hNRN2⟩ :=
        ih H2 rest hcount2 hCC2 hlrest (List.nodup_cons.1 hnd).2
      have hmono : monoLook H H' := monoLook_comp hmono02 hmono2
      have hq : H'.queue = H.queue := by rw [hq2, hq02]
      have h1valid : e1.name.data.contains '@' = false := (hT.1 e1 h1ds).2.2.1
      refine ⟨H', ⟨max (fs + 1) ft, ?_⟩, hCC', hmono, hq, ?_, ?_, ?_⟩
      · intro f hf
        obtain ⟨g, rfl⟩ : ∃ g, f = g + 1 := ⟨f - 1, by omega⟩
        have hgfs : fs ≤ g := by omega
        have hreg : registerState (g + 1) H e1 = .ok H2 := by
          rw [registerState_store_eq h1valid h1fresh (Or.inr h1pst) hres1]
          exact hfs g hgfs
        rw [drainWith_cons, hreg]
        exact hft (g + 1) (by omega)
      · intro e he
        rcases List.mem_cons.1 he with rfl | he
        · have hs1 : lookupState (storeState H e.name r1) e.name = some r1 :=
            lookupState_store_self r1 h1fresh
          have hs2 := hmono2 _ _ (hmono12 _ _ hs1)
          rw [hs2]
          rfl
        · exact hstored2 e he
      · intro n hn
        rcases hNS2 n hn with hH2 | hln | hqu
        · rcases hNS1 n hH2 with hG1 | hln1 | hqu1
          · rw [lookupState_store_isSome] at hG1
            rcases hG1 with hH | rfl
            · exact Or.inl hH
            · refine Or.inr (Or.inl ?_)
              rw [List.map_cons]
              exact List.mem_cons_self _ _
          · rw [queueBucket_storeState] at hln1
            exact Or.inr (Or.inr (bucketNames_qUU hCC h1fresh hln1))
          · exact Or.inr (Or.inr (qUU_store_mono hqu1))
        · refine Or.inr (Or.inl ?_)
          rw [List.map_cons]
          exact List.mem_cons_of_mem _ hln
        · exact Or.inr (Or.inr (qUU_congr_mono hq02 hmono02 hqu))
      · intro b hb hb' e0 he0
        by_cases hH2b : (lookupState H2 b).isSome
        · by_cases hG1b : (lookupState (storeState H e1.name r1) b).isSome
          · rw [lookupState_store_isSome] at hG1b
            rcases hG1b with hH | rfl
            · rw [hb] at hH
              simp at hH
            · have hbeq : queueBucket H' e1.name =
                  queueBucket (storeState H e1.name r1) e1.name := by
                rw [queueBucket_congr hq, queueBucket_storeState]
              rw [hbeq] at he0
              exact monoLook_isSome hmono2 (hstored1 e0 he0)
          · have hG1bn : lookupState (storeState H e1.name r1) b = none :=
              Option.not_isSome_iff_eq_none.1 hG1b
            rw [queueBucket_congr hq2] at he0
            exact monoLook_isSome hmono2 (hNRN1 b hG1bn hH2b e0 he0)
        · have hH2bn : lookupState H2 b = none :=
            Option.not_isSome_iff_eq_none.1 hH2b
          exact hNRN2 b hH2bn hb' e0 he0

/-- Simulation of one registration with an available parent: it
stores the canonical record, recursively drains the unblocked
descendants, and preserves the core invariant without touching the
queue. -/
theorem register_sim {ds : List Decl} {Ftop : Factory}
    (hT : TreeDecls ds) (hTI : TI ds Ftop) {G : Factory} {e : Decl}
    (hCC : CCm ds Ftop G) (heds : e ∈ ds)
    (hfresh : lookupState G e.name = none)
    (hpst : (lookupState G (queueParentName e)).isSome) :
    ∃ G', (∃ f0, ∀ f, f0 ≤ f → registerState f G e = .ok G') ∧
      CCm ds Ftop G' ∧ monoLook G G' ∧ G'.queue = G.queue ∧
      (lookupState G' e.name).isSome ∧
      (∀ n, (lookupState G' n).isSome → (lookupState G n).isSome ∨
        n = e.name ∨ qUnderUnstored G n) ∧
      (∀ b, lookupState G b = none → (lookupState G' b).isSome →
        ∀ e0 ∈ queueBucket G' b, (lookupState G' e0.name).isSome) := by
  obtain ⟨r, hres, hlookTop⟩ := resolve_canonical hT hTI hCC heds hpst
  have hCC1 := CCm_store hT hCC heds hpst hres hlookTop
  have hentry := bucket_entry_hyps hT hCC heds hfresh hpst r
  have hnd1 := bucket_nodup hCC1 e.name
  obtain ⟨G', ⟨fs, hfs⟩, hCC', hmono12, hq12, hstored1, hNS1, hNRN1⟩ :=
    drain_sim hT hTI (pendingCount (storeState G e.name r))
      (storeState G e.name r)
      (queueBucket (storeState G e.name r) e.name)
      le_rfl hCC1 hentry hnd1
  have hvalid : e.name.data.contains '@' = false := (hT.1 e heds).2.2.1
  have hmono01 : monoLook G (storeState G e.name r) :=
    fun n r0 h => lookupState_store_preserved _ _ h
  refine ⟨G', ⟨fs + 1, ?_⟩, hCC', monoLook_comp hmono01 hmono12,
    by rw [hq12]; rfl, ?_, ?_, ?_⟩
  · intro f hf
    obtain ⟨g, rfl⟩ : ∃ g, f = g + 1 := ⟨f - 1, by omega⟩
    rw [registerState_store_eq hvalid hfresh (Or.inr hpst) hres]
    exact hfs g (by omega)
  · exact monoLook_isSome hmono12
      (by rw [lookupState_store_self r hfresh]; rfl)
  · intro n hn
    rcases hNS1 n hn with hG1 | hln | hqu
    · rw [lookupState_store_isSome] at hG1
      rcases hG1 with hG | rfl
      · exact Or.inl hG
      · exact Or.inr (Or.inl rfl)
    · rw [queueBucket_storeState] at hln
      exact Or.inr (Or.inr (bucketNames_qUU hCC hfresh hln))
    · exact Or.inr (Or.inr (qUU_store_mono hqu))
  · intro b hb hb' e0 he0
    by_cases hG1b : (lookupState (storeState G e.name r) b).isSome
    · rw [lookupState_store_isSome] at hG1b
      rcases hG1b with hG | rfl
      · rw [hb] at hG
        simp at hG
      · have hbeq : queueBucket G' e.name =
            queueBucket (storeState G e.name r) e.name := by
          rw [queueBucket_congr hq12]
        rw [hbeq] at he0
        exact hstored1 e0 he0
    · have hG1bn := Option.not_isSome_iff_eq_none.1 hG1b
      exact hNRN1 b hG1bn hb' e0 he0

theorem mem_allQueued_of_kv {F : Factory} {kv : String × List Decl}
    (hkv : kv ∈ F.queue) {e : Decl} (he : e ∈ kv.2) : e ∈ allQueued F := by
  unfold allQueued
  rw [List.mem_flatten]
  exact ⟨kv.2, List.mem_map_of_mem Prod.snd hkv, he⟩

theorem queueBucket_queueState_grow (F : Factory) (pn : String) (d : Decl)
    (b : String) {e0 : Decl} (h : e0 ∈ queueBucket F b) :
    e0 ∈ queueBucket (queueState F pn d) b := by
  by_cases hb : b = pn
  · subst hb
    rw [queueBucket_queueState_same]
    exact List.mem_append_left _ h
  · rw [queueBucket_queueState_other F pn d b hb]
    exact h

/-- Invariant of the whole children-first run after processing the
prefix `Pr`: the core invariant, no ready-but-undrained queue entry,
every processed declaration either stored or parked in its bucket
under its unregistered parent name, and registry and queue fed only by
the root and processed declarations. -/
structure CInv (ds : List Decl) (Ftop : Factory) (Pr : List Decl)
    (G : Factory) : Prop where
  core : CCm ds Ftop G
  noReady : ∀ kv ∈ G.queue, (lookupState G kv.1).isSome →
    ∀ e ∈ kv.2, (lookupState G e.name).isSome
  located : ∀ e ∈ Pr, (lookupState G e.name).isSome ∨
    (queueParentName e ≠ "" ∧ lookupState G (queueParentName e) = none ∧
      e ∈ queueBucket G (queueParentName e))
  storedFrom : ∀ n, (lookupState G n).isSome → n = "" ∨ ∃ e ∈ Pr, e.name = n
  queuedFrom : ∀ e, e ∈ allQueued G → e ∈ Pr

/-- Step of the children-first run in which the declaration is queued
under its unregistered parent name. -/
theorem CInv_queueStep {ds : List Decl} {Ftop : Factory} {Pr : List Decl}
    {G : Factory} {e : Decl} (hInv : CInv ds Ftop Pr G) (heds : e ∈ ds)
    (hePr : e ∉ Pr) (hfresh : lookupState G e.name = none)
    (hne : queueParentName e ≠ "")
    (hun : lookupState G (queueParentName e) = none) :
    CInv ds Ftop (Pr ++ [e]) (queueState G (queueParentName e) e) := by
  have hcore : CCm ds Ftop (queueState G (queueParentName e) e) := by
    refine ⟨?_, ?_, ?_, ?_, ?_, ?_, ?_, ?_⟩
    · rw [lookupState_queueState]
      exact hInv.core.root
    · intro n r h
      rw [lookupState_queueState] at h
      exact hInv.core.agree n r h
    · intro n h
      rw [lookupState_queueState] at h
      exact hInv.core.domSub n h
    · intro n r m h hm
      rw [lookupState_queueState] at h
      rw [lookupState_queueState]
      exact hInv.core.navStored n r m h hm
    · intro kv' hkv' e0 he0
      rcases mem_queue_queueState hkv' with hold | ⟨kv, hkv, hkey, rfl⟩ | rfl
      · exact hInv.core.queued kv' hold e0 he0
      · simp only [List.mem_append, List.mem_singleton] at he0
        rcases he0 with he0 | rfl
        · obtain ⟨h1, h2⟩ := hInv.core.queued kv hkv e0 he0
          exact ⟨h1, by rw [h2, hkey]⟩
        · exact ⟨heds, rfl⟩
      · simp only [List.mem_singleton] at he0
        subst he0
        exact ⟨heds, rfl⟩
    · intro kv' hkv'
      rcases mem_queue_queueState hkv' with hold | ⟨kv, hkv, hkey, rfl⟩ | rfl
      · exact hInv.core.bucketNodup kv' hold
      · rw [List.nodup_append]
        refine ⟨hInv.core.bucketNodup kv hkv, List.nodup_singleton e, ?_⟩
        intro x hx hx2
        simp only [List.mem_singleton] at hx2
        exact hePr (hx2 ▸ hInv.queuedFrom x (mem_allQueued_of_kv hkv hx))
      · exact List.nodup_singleton e
    · intro kv' hkv' hkv1 e0 he0
      rw [lookupState_queueState] at hkv1
      rw [lookupState_queueState]
      rcases mem_queue_queueState hkv' with hold | ⟨kv, hkv, hkey, rfl⟩ | rfl
      · exact hInv.core.unstoredUnder kv' hold hkv1 e0 he0
      · simp only [List.mem_append, List.mem_singleton] at he0
        rcases he0 with he0 | rfl
        · exact hInv.core.unstoredUnder kv hkv (by rw [hkey]; exact hkv1) e0 he0
        · exact hfresh
      · simp only [List.mem_singleton] at he0
        subst he0
        exact hfresh
    · exact queueState_keys_nodup hInv.core.keysNodup
  refine ⟨hcore, ?_, ?_, ?_, ?_⟩
  · intro kv' hkv' hkv1 e0 he0
    rw [lookupState_queueState] at hkv1
    rw [lookupState_queueState]
    rcases mem_queue_queueState hkv' with hold | ⟨kv, hkv, hkey, rfl⟩ | rfl
    · exact hInv.noReady kv' hold hkv1 e0 he0
    · rw [hun] at hkv1
      simp at hkv1
    · rw [hun] at hkv1
      simp at hkv1
  · intro e0 he0
    rcases List.mem_append.1 he0 with he0Pr | he0e
    · rcases hInv.located e0 he0Pr with hst | ⟨hne0, hun0, hb0⟩
      · left
        rw [lookupState_queueState]
        exact hst
      · right
        refine ⟨hne0, ?_, queueBucket_queueState_grow G _ e _ hb0⟩
        rw [lookupState_queueState]
        exact hun0
    · simp only [List.mem_singleton] at he0e
      subst he0e
      right
      refine ⟨hne, ?_, ?_⟩
      · rw [lookupState_queueState]
        exact hun
      · rw [queueBucket_queueState_same]
        exact List.mem_append_right _ (List.mem_singleton_self e0)
  · intro n hn
    rw [lookupState_queueState] at hn
    rcases hInv.storedFrom n hn with h0 | ⟨e2, h2, h3⟩
    · exact Or.inl h0
    · exact Or.inr ⟨e2, List.mem_append_left _ h2, h3⟩
  · intro e0 he0
    rcases mem_allQueued_queueState he0 with hold | rfl
    · exact List.mem_append_left _ (hInv.queuedFrom e0 hold)
    · exact List.mem_append_right _ (List.mem_singleton_self e0)

/-- Step of the children-first run in which the declaration's parent
name is available, so it is resolved, stored and its pending
descendants drained. -/
theorem CInv_storeStep {ds : List Decl} {Ftop : Factory} {Pr : List Decl}
    {G : Factory} {e : Decl} (hT : TreeDecls ds) (hTI : TI ds Ftop)
    (hInv : CInv ds Ftop Pr G) (heds : e ∈ ds)
    (hfresh : lookupState G e.name = none)
    (hpst : (lookupState G (queueParentName e)).isSome) :
    ∃ G', (∃ f0, ∀ f, f0 ≤ f → registerState f G e = .ok G') ∧
      CInv ds Ftop (Pr ++ [e]) G' := by
  obtain ⟨G', hfuel, hCC', hmono, hqeq, hest, hNS, hNRN⟩ :=
    register_sim hT hTI hInv.core heds hfresh hpst
  refine ⟨G', hfuel, ?_⟩
  have hNoReady : ∀ kv ∈ G'.queue, (lookupState G' kv.1).isSome →
      ∀ e0 ∈ kv.2, (lookupState G' e0.name).isSome := by
    intro kv hkv hkv1 e0 he0
    have hkvG : kv ∈ G.queue := by
      rw [hqeq] at hkv
      exact hkv
    by_cases hGb : (lookupState G kv.1).isSome
    · exact monoLook_isSome hmono (hInv.noReady kv hkvG hGb e0 he0)
    · have hGbn := Option.not_isSome_iff_eq_none.1 hGb
      have hb : queueBucket G' kv.1 = kv.2 :=
        bucket_eq_of_mem hCC'.keysNodup hkv
      exact hNRN kv.1 hGbn hkv1 e0 (by rw [hb]; exact he0)
  refine ⟨hCC', hNoReady, ?_, ?_, ?_⟩
  · intro e0 he0
    rcases List.mem_append.1 he0 with he0Pr | he0e
    · rcases hInv.located e0 he0Pr with hst | ⟨hne0, hun0, hb0⟩
      · exact Or.inl (monoLook_isSome hmono hst)
      · by_cases hb' : (lookupState G' (queueParentName e0)).isSome
        · left
          obtain ⟨kv, hkv, hkv1, hekv⟩ := bucket_mem_queue hb0
          have hkv' : kv ∈ G'.queue := by
            rw [hqeq]
            exact hkv
          exact hNoReady kv hkv' (by rw [hkv1]; exact hb') e0 hekv
        · right
          refine ⟨hne0, Option.not_isSome_iff_eq_none.1 hb', ?_⟩
          rw [queueBucket_congr hqeq]
          exact hb0
    · simp only [List.mem_singleton] at he0e
      subst he0e
      exact Or.inl hest
  · intro n hn
    rcases hNS n hn with hG | rfl | hquu
    · rcases hInv.storedFrom n hG with h0 | ⟨e2, h2, h3⟩
      · exact Or.inl h0
      · exact Or.inr ⟨e2, List.mem_append_left _ h2, h3⟩
    · exact Or.inr ⟨e, List.mem_append_right _ (List.mem_singleton_self e), rfl⟩
    · obtain ⟨e2, he2, hname, -⟩ := hquu
      exact Or.inr ⟨e2, List.mem_append_left _ (hInv.queuedFrom e2 he2), hname⟩
  · intro e0 he0
    rw [allQueued_congr hqeq] at he0
    exact List.mem_append_left _ (hInv.queuedFrom e0 he0)

/-- The children-first run maintains the run invariant all the way and
succeeds with enough fuel. -/
theorem cf_run_aux {ds L2 : List Decl} {Ftop : Factory}
    (hT : TreeDecls ds) (hTI : TI ds Ftop) (hperm : L2.Perm ds) :
    ∀ rest Pr G, Pr ++ rest = L2 → CInv ds Ftop Pr G →
      ∃ f0 G', (∀ f, f0 ≤ f → runAll G rest f = .ok G') ∧
        CInv ds Ftop L2 G' := by
  intro rest
  induction rest with
  | nil =>
    intro Pr G hP hInv
    refine ⟨0, G, fun f hf => rfl, ?_⟩
    rw [List.append_nil] at hP
    exact hP ▸ hInv
  | cons e rest' ih =>
    intro Pr G hP hInv
    have heL2 : e ∈ L2 := by
      rw [← hP]
      simp
    have heds : e ∈ ds := hperm.mem_iff.1 heL2
    have hL2names : (L2.map (·.name)).Nodup :=
      ((hperm.map (·.name)).nodup_iff).2 hT.2.1
    have hePrName : e.name ∉ Pr.map (·.name) := by
      rw [← hP, List.map_append, List.nodup_append] at hL2names
      obtain ⟨-, -, hdisj⟩ := hL2names
      intro hmem
      exact hdisj hmem (by rw [List.map_cons]; exact List.mem_cons_self _ _)
    have hePr : e ∉ Pr := fun hmem => hePrName (List.mem_map_of_mem _ hmem)
    have hfresh : lookupState G e.name = none := by
      cases hl : lookupState G e.name with
      | none => rfl
      | some r =>
        exfalso
        have hsome : (lookupState G e.name).isSome := by
          rw [hl]
          rfl
        rcases hInv.storedFrom e.name hsome with h0 | ⟨e2, h2, h3⟩
        · exact segsOK_ne_empty (hT.1 e heds).2 h0
        · exact hePrName (h3 ▸ List.mem_map_of_mem (·.name) h2)
    have hP' : (Pr ++ [e]) ++ rest' = L2 := by
      rw [← hP]
      simp
    by_cases hguard : queueParentName e ≠ "" ∧
        lookupState G (queueParentName e) = none
    · obtain ⟨hne, hun⟩ := hguard
      have hInv1 := CInv_queueStep hInv heds hePr hfresh hne hun
      obtain ⟨f1, G', hrun', hInv'⟩ :=
        ih (Pr ++ [e]) (queueState G (queueParentName e) e) hP' hInv1
      refine ⟨max 1 f1, G', ?_, hInv'⟩
      intro f hf
      rw [runAll_cons]
      have hreg : registerState f G e =
          .ok (queueState G (queueParentName e) e) := by
        obtain ⟨g, rfl⟩ : ∃ g, f = g + 1 := ⟨f - 1, by omega⟩
        exact registerState_queue_eq (hT.1 e heds).2.2.1 hfresh hne hun
      rw [hreg]
      exact hrun' f (by omega)
    · have hpst : (lookupState G (queueParentName e)).isSome := by
        by_cases h0 : queueParentName e = ""
        · rw [h0, hInv.core.root]
          rfl
        · cases hl : lookupState G (queueParentName e) with
          | some r => rfl
          | none => exact absurd ⟨h0, hl⟩ hguard
      obtain ⟨G1, ⟨f1, hreg⟩, hInv1⟩ :=
        CInv_storeStep hT hTI hInv heds hfresh hpst
      obtain ⟨f2, G', hrun', hInv'⟩ := ih (Pr ++ [e]) G1 hP' hInv1
      refine ⟨max f1 f2, G', ?_, hInv'⟩
      intro f hf
      rw [runAll_cons]
      rw [hreg f (by omega)]
      exact hrun' f (by omega)

instance (s : String) : Decidable (segsOK s) := by
  unfold segsOK
  infer_instance

instance (ds : List Decl) : Decidable (TreeDecls ds) := by
  unfold TreeDecls
  infer_instance

instance (ds : List Decl) : Decidable (TopoOrdered ds) := by
  unfold TopoOrdered
  infer_instance

instance (L : List Decl) : Decidable (ChildFirst L) := by
  unfold ChildFirst
  infer_instance

theorem CInv_init {ds : List Decl} {Ftop : Factory} (hTI : TI ds Ftop) :
    CInv ds Ftop [] initFactory := by
  obtain ⟨-, htroot, -, -, -, -⟩ := hTI
  refine ⟨⟨rfl, ?_, ?_, ?_, ?_, ?_, ?_, ?_⟩, ?_, ?_, ?_, ?_⟩
  · intro n r h
    obtain ⟨rfl, rfl⟩ := lookup_initFactory h
    exact htroot
  · intro n h
    obtain ⟨r, hr⟩ := Option.isSome_iff_exists.1 h
    exact Or.inl (lookup_initFactory hr).1
  · intro n r m h hm
    obtain ⟨rfl, rfl⟩ := lookup_initFactory h
    simp [rootRec] at hm
  · intro kv hkv
    simp [initFactory] at hkv
  · intro kv hkv
    simp [initFactory] at hkv
  · intro kv hkv
    simp [initFactory] at hkv
  · exact List.nodup_nil
  · intro kv hkv
    simp [initFactory] at hkv
  · intro e he
    simp at he
  · intro n h
    obtain ⟨r, hr⟩ := Option.isSome_iff_exists.1 h
    exact Or.inl (lookup_initFactory hr).1
  · intro e he
    simp [allQueued, initFactory] at he

/-- Completeness of the children-first run: every declared state ends
up stored, by induction along the topological order (its parent chain
eventually reaches the root, so its bucket cannot stay parked). -/
theorem cf_complete {ds L2 : List Decl} {Ftop Fcf : Factory}
    (hT : TreeDecls ds) (hTopo : TopoOrdered ds) (hperm : L2.Perm ds)
    (hInv : CInv ds Ftop L2 Fcf) :
    ∀ k A d B, ds = A ++ d :: B → A.length < k →
      (lookupState Fcf d.name).isSome := by
  intro k
  induction k with
  | zero =>
    intro A d B hds hlen
    omega
  | succ k ih =>
    intro A d B hds hlen
    have hdL2 : d ∈ L2 := hperm.mem_iff.2 (by rw [hds]; simp)
    rcases hInv.located d hdL2 with hst | ⟨hne, hun, -⟩
    · exact hst
    · exfalso
      rcases topoOrdered_split hTopo A d B hds with h0 | hmem
      · exact hne h0
      · rw [List.mem_map] at hmem
        obtain ⟨a, haA, haname⟩ := hmem
        obtain ⟨A1, A2, hAsplit⟩ := List.append_of_mem haA
        have hds2 : ds = A1 ++ a :: (A2 ++ d :: B) := by
          rw [hds, hAsplit]
          simp
        have hlen1 : A1.length < A.length := by
          rw [hAsplit]
          simp
        have hstored := ih A1 a (A2 ++ d :: B) hds2 (by omega)
        rw [haname, hun] at hstored
        simp at hstored

/-- Record stored for `{name: "a.b", parent: "c"}` when `"a"` and
`"c"` are both registered: the queueing guard passes via the dotted
prefix `"a"`, and the pipeline resolves the explicit parent `"c"`. -/
def recABunderC : StateRec :=
  { name := "a.b"
    parent := some "c"
    data := none
    url := none
    navigable := none
    params := []
    ownParams := []
    views := [("@c", .selfRef)]
    path := ["c", "a.b"]
    includes := ["", "c", "a.b"]
    abstract := false }

def factoryTopoC1 : Factory :=
  { states := [("", rootRec), ("a", recA), ("c", recC), ("a.b", recABunderC)]
    queue := [] }

/-- C1 counterexample: for the tree {a}, {c}, {name: "a.b", parent:
"c"} the program is order-dependent.  Registered parent-first, the run
succeeds and stores "a.b" under "c".  Registered children-first, "a.b"
is queued under its dotted prefix "a" (the queueing decision ignores
the explicit parent, see C3); storing "a" then drains "a.b" while "c"
is still unregistered, the parent rule resolves to undefined, and the
pipeline throws (the TypeError of `state.parent.params`), failing the
whole `register("a")` call. -/
theorem c1_counterexample :
    (∃ F, runAll initFactory
        [{ name := "a" }, { name := "c" }, conflictDecl] 2 = .ok F ∧
      (lookupState F "a.b").isSome) ∧
    runAll initFactory
      [conflictDecl, { name := "a" }, { name := "c" }] 2 =
      .error .typeError :=
  ⟨⟨factoryTopoC1, rfl, rfl⟩, rfl⟩

/-- C1 amended: order-independence holds for declarations forming a
tree under the dotted-name discipline, without explicit parent fields
(with them, registration is order-dependent — see the counterexample):
for such a tree, a children-first permutation of a topologically
ordered registration run, relying on the pending queue with queued
children drained recursively once the parent is stored, succeeds with
enough fuel and produces a registry mapping every name to exactly the
record the topological run produced. -/
theorem c1_order_independence {ds L2 : List Decl} {fuel1 : Nat}
    {Ftop : Factory} (hT : TreeDecls ds) (hTopo : TopoOrdered ds)
    (hperm : L2.Perm ds) (hCF : ChildFirst L2)
    (hrun : runAll initFactory ds fuel1 = .ok Ftop) :
    ∃ fuel2 Fcf, runAll initFactory L2 fuel2 = .ok Fcf ∧
      ∀ n, lookupState Fcf n = lookupState Ftop n := by
  have hTI : TI ds Ftop := topo_run hT hTopo hrun
  obtain ⟨f0, Fcf, hok, hInv⟩ :=
    cf_run_aux hT hTI hperm L2 [] initFactory rfl (CInv_init hTI)
  refine ⟨f0, Fcf, hok f0 le_rfl, ?_⟩
  have hcomp : ∀ d ∈ ds, (lookupState Fcf d.name).isSome := by
    intro d hd
    obtain ⟨A, B, hds⟩ := List.append_of_mem hd
    exact cf_complete hT hTopo hperm hInv (A.length + 1) A d B hds
      (by omega)
  obtain ⟨-, htroot, htdom, -, -, -⟩ := hTI
  intro n
  cases hcf : lookupState Fcf n with
  | some r =>
    rw [hInv.core.agree n r hcf]
  | none =>
    cases htop : lookupState Ftop n with
    | none => rfl
    | some r =>
      exfalso
      have hsome : (lookupState Ftop n).isSome := by
        rw [htop]
        rfl
      rcases (htdom n).1 hsome with rfl | hmem
      · rw [hInv.core.root] at hcf
        exact Option.noConfusion hcf
      · rw [List.mem_map] at hmem
        obtain ⟨d, hd, rfl⟩ := hmem
        have hds := hcomp d hd
        rw [hcf] at hds
        simp at hds

/-- Witness for C1 at the tree a, a.b: registering the child first
queues it, registering the parent unblocks it, and the final registry
equals the topological one. -/
theorem c1_order_independence_witness :
    ∃ fuel2 Fcf,
      runAll initFactory [{ name := "a.b" }, { name := "a" }] fuel2 =
        .ok Fcf ∧
      ∀ n, lookupState Fcf n =
        lookupState
          { states := [("", rootRec), ("a", recA), ("a.b", recAB)]
            queue := [] } n :=
  @c1_order_independence [{ name := "a" }, { name := "a.b" }]
    [{ name := "a.b" }, { name := "a" }] 2
    { states := [("", rootRec), ("a", recA), ("a.b", recAB)]
      queue := [] }
    (by decide) (by decide) (by decide) (by decide) (by rfl)

end Slyn
